import Mathlib

/-!
Verification of the spatial stacking and coalescence core of the carmen
geocoder (`lib/geocoder/spatialmatch.js`).

The JavaScript source is shallowly embedded: arrays become `List`s,
JavaScript numbers become `ℚ` (all quantities involved are produced by
finitely many field operations on decimal inputs), token/index bitmasks
become `Nat` with bitwise operations, the ad-hoc `relev`/`adjRelev` fields
attached to stack arrays become record fields, and the mutated memo object
of `stackable` is threaded in state-passing style.  External collaborators
(the native `coalesce` primitive, tile projection, bbox geometry) are
parameters of the model.
-/

/-- The `PREFIX_SCAN` enum from carmen-cache (values `disabled`, `enabled`,
`word_boundary`); only disequality with `disabled` is ever tested. -/
inductive PScan where
  | disabled : PScan
  | enabled : PScan
  | wordBoundary : PScan
deriving DecidableEq, Repr, Inhabited

/-- A subquery: a token list that additionally carries an `edit_distance`
field (in the source, an array with an ad-hoc property). -/
structure Subquery where
  tokens : List String
  edit_distance : Nat
deriving DecidableEq, Repr, Inhabited

/-- One phrasematch candidate (input to `collapseToArchetypes`, and the
element type of expanded stacks). -/
structure Phrasematch where
  mask : Nat
  weight : ℚ
  editMultiplier : ℚ
  zoom : Nat
  idx : Nat
  scorefactor : ℚ
  proxMatch : Bool
  catMatch : Bool
  pfx : PScan
  subquery : Subquery
  partialNumber : Bool
  address : Option String
deriving DecidableEq, Repr, Inhabited

/-- A phrasematch archetype: the collapse of phrasematches sharing
`(mask, weight, editMultiplier, prefix)`, retaining the originals in
`exemplars` (source: `collapseToArchetypes`). -/
structure Archetype where
  mask : Nat
  weight : ℚ
  editMultiplier : ℚ
  zoom : Nat
  idx : Nat
  scorefactor : ℚ
  proxMatch : Bool
  catMatch : Bool
  pfx : PScan
  exemplars : List Phrasematch
deriving DecidableEq, Repr, Inhabited

/-- One per-index phrasematch result, as consumed by
`collapseToArchetypes`. `bmask` is an array indexed by `idx` in the
source, embedded as a `List Bool`. -/
structure PhrasematchResult where
  idx : Nat
  nmask : Nat
  bmask : List Bool
  phrasematches : List Phrasematch
deriving DecidableEq, Repr, Inhabited

/-- A per-index result after the collapse: same shape, archetype payload. -/
structure ArchetypeResult where
  idx : Nat
  nmask : Nat
  bmask : List Bool
  phrasematches : List Archetype
deriving DecidableEq, Repr, Inhabited

/-- A stack: an ordered sequence of elements with the two scalars that the
source attaches to the stack array itself. -/
structure Stack (α : Type) where
  elements : List α
  relev : ℚ
  adjRelev : ℚ
deriving DecidableEq, Repr, Inhabited

/-- Truthiness test of `bmask[i]` for an array-embedded bitmask
(absent entries are falsy, as in JavaScript). -/
def bmaskHas (bm : List Bool) (i : Nat) : Bool :=
  bm.getD i false

/-- The memo object threaded through `stackable`.  The field `stks`
embeds `memo.stacks` of the source (`stacks` is a reserved token here). -/
structure Memo where
  stks : List (Stack Archetype)
  maxStacks : List (Stack Archetype)
  maxRelev : ℚ
deriving DecidableEq, Repr, Inhabited

/-- Fuel-driven binary digit accumulator: `binDigitsAux fuel n acc`
prepends the base-2 digits of `n` (most significant first) to `acc`,
mirroring how `Number.prototype.toString(2)` produces the digit string. -/
def binDigitsAux : Nat → Nat → List Nat → List Nat
  | 0, _, acc => acc
  | fuel + 1, n, acc => if n = 0 then acc else binDigitsAux fuel (n / 2) (n % 2 :: acc)

/-- The base-2 digit list of `n`, as produced by `n.toString(2)`
(the digit list of `0` is `[0]`). -/
def binString (n : Nat) : List Nat :=
  if n = 0 then [0] else binDigitsAux n n []

/-- Embeds `stackMask.toString(2).split(1).length - 1` from `rebalance`: the
number of `1` digits in the binary string of `n`. -/
def countOnes (n : Nat) : Nat :=
  (binString n).count 1

/-- Fuel-driven population count used on the specification side. -/
def popcountAux : Nat → Nat → Nat
  | 0, _ => 0
  | fuel + 1, n => if n = 0 then 0 else n % 2 + popcountAux fuel (n / 2)

/-- Population count (number of set bits) of a natural number. -/
def popcount (n : Nat) : Nat :=
  popcountAux n n

/-- Modelled from the spec: `lib/util/round-to.js` is not under `src/`;
per §4.E, `round8` is half-away-from-zero rounding to a fixed number of
decimal places.  `roundHalfAway q` rounds a rational to the nearest
integer, halves away from zero. -/
def roundHalfAway (q : ℚ) : ℤ :=
  if 0 ≤ q then Rat.floor (q + 1/2) else -Rat.floor (-q + 1/2)

/-- Modelled from the spec: rounding to `d` decimal places,
half away from zero (`roundTo(value, 8)` in the source). -/
def roundTo (q : ℚ) (d : Nat) : ℚ :=
  (roundHalfAway (q * 10 ^ d) : ℚ) / 10 ^ d

/-- Modelled from the spec: `termops.decode3BitLogScale` lives in
`lib/text-processing/termops.js`, which is not under `src/`; the spec
specifies only its signature `decode3BitLogScale(code, factor) → number`
and that the decoded value is monotone in `code` for a fixed factor.
Modelled as a simple monotone decoding. -/
def decode3BitLogScale (code : ℚ) (factor : ℚ) : ℚ :=
  factor * code / 7

/-- Signature key of a phrasematch: the source builds the string
`mask + '-' + weight + '-' + editMultiplier + '-' + prefix`; the embedded
key is the corresponding tuple. -/
def sigOf (pm : Phrasematch) : Nat × ℚ × ℚ × PScan :=
  (pm.mask, pm.weight, pm.editMultiplier, pm.pfx)

/-- Signature key of an archetype group (its own key fields). -/
def sigOfArch (g : Archetype) : Nat × ℚ × ℚ × PScan :=
  (g.mask, g.weight, g.editMultiplier, g.pfx)

/-- One step of the `uniqMap` loop in `collapseToArchetypes`: if a group
with `pm`'s signature exists, append `pm` to its exemplars, otherwise
create a new group (a `Map` keeps insertion order, so new groups go to
the back). `rIdx` is the enclosing result's `idx`. -/
def addToGroups (rIdx : Nat) (groups : List Archetype) (pm : Phrasematch) : List Archetype :=
  if groups.any (fun g => sigOfArch g = sigOf pm) then
    groups.map (fun g =>
      if sigOfArch g = sigOf pm then { g with exemplars := g.exemplars ++ [pm] } else g)
  else
    groups ++ [{ mask := pm.mask, weight := pm.weight, editMultiplier := pm.editMultiplier,
                 zoom := pm.zoom, idx := rIdx, scorefactor := pm.scorefactor,
                 proxMatch := pm.proxMatch, catMatch := pm.catMatch, pfx := pm.pfx,
                 exemplars := [pm] }]

/-- The grouping pass of `collapseToArchetypes` for one result's
phrasematch list. -/
def groupPMs (rIdx : Nat) (pms : List Phrasematch) : List Archetype :=
  pms.foldl (addToGroups rIdx) []

/-- The low-confidence nerf loop of `collapseToArchetypes`: one-word
prefix match at edit distance 0 with more than two exemplars gets its
`editMultiplier` scaled by `.99`. -/
def lowConfPenalty (g : Archetype) : Archetype :=
  match g.exemplars with
  | [] => g
  | e0 :: _ =>
    if e0.subquery.tokens.length = 1 ∧ e0.subquery.edit_distance = 0 ∧
        g.pfx ≠ PScan.disabled ∧ 2 < g.exemplars.length then
      { g with editMultiplier := g.editMultiplier * (99/100) }
    else g

/-- Source `collapseToArchetypes`: group each result's phrasematches by
signature, then apply the low-confidence penalty to each group. -/
def collapseToArchetypes (rs : List PhrasematchResult) : List ArchetypeResult :=
  rs.map (fun r =>
    { idx := r.idx, nmask := r.nmask, bmask := r.bmask,
      phrasematches := (groupPMs r.idx r.phrasematches).map lowConfPenalty })

/-- Innermost loop of `expandFromArchetypesInner`
(`matchIdx === stack.length - 1`): emit one expanded stack per exemplar,
stopping as soon as `out.length >= maxOut` after a push. -/
def expandLoopLast (maxOut : Nat) (srel sadj : ℚ) (soFar : List Phrasematch) :
    List Phrasematch → List (Stack Phrasematch) → List (Stack Phrasematch) × Bool
  | [], out => (out, false)
  | ex :: more, out =>
    let out2 := out ++ [⟨soFar ++ [ex], srel, sadj⟩]
    if maxOut ≤ out2.length then (out2, true)
    else expandLoopLast maxOut srel sadj soFar more out2

/-- Outer loop of `expandFromArchetypesInner` at a non-final position:
recurse for each exemplar, propagating the done flag. -/
def expandLoopMid
    (recurse : List Phrasematch → List (Stack Phrasematch) → List (Stack Phrasematch) × Bool)
    (soFar : List Phrasematch) :
    List Phrasematch → List (Stack Phrasematch) → List (Stack Phrasematch) × Bool
  | [], out => (out, false)
  | ex :: more, out =>
    let r2 := recurse (soFar ++ [ex]) out
    if r2.2 then (r2.1, true) else expandLoopMid recurse soFar more r2.1

/-- Source `expandFromArchetypesInner`, recursing over the remaining stack
positions. The `[]` case is unreachable in the pipeline (a selected
stack is never empty) and returns its input unchanged. -/
def expandInner (maxOut : Nat) (srel sadj : ℚ) :
    List Archetype → List Phrasematch → List (Stack Phrasematch) → List (Stack Phrasematch) × Bool
  | [] => fun _ out => (out, false)
  | [last] => fun soFar out => expandLoopLast maxOut srel sadj soFar last.exemplars out
  | a :: b :: rest => fun soFar out =>
    expandLoopMid (expandInner maxOut srel sadj (b :: rest)) soFar a.exemplars out

/-- The loop of `expandFromArchetypes` over the selected stacks, with the
accumulated `out` array threaded through. -/
def expandGo (maxOut : Nat) : List (Stack Archetype) → List (Stack Phrasematch) → List (Stack Phrasematch)
  | [], out => out
  | s :: more, out =>
    let r2 := expandInner maxOut s.relev s.adjRelev s.elements [] out
    if r2.2 then r2.1 else expandGo maxOut more r2.1

/-- Source `expandFromArchetypes`: expand each selected archetype stack into the
cartesian product of its exemplar lists, stopping at `maxOut` outputs. -/
def expandFromArchetypes (stks : List (Stack Archetype)) (maxOut : Nat) :
    List (Stack Phrasematch) :=
  expandGo maxOut stks []

/-- The admission block of `stackable` (source lines 404–418): a candidate
stack with `relev > 0.5` is routed into `maxStacks` or `stacks`
according to its relevance relative to `memo.maxRelev`. -/
def admitTarget (limit : Nat) (t : Stack Archetype) (memo : Memo) : Memo :=
  if t.relev > 1/2 then
    if t.relev > memo.maxRelev then
      if limit ≤ memo.maxStacks.length then
        { stks := memo.maxStacks, maxStacks := [t], maxRelev := t.relev }
      else
        { stks := memo.stks, maxStacks := memo.maxStacks ++ [t], maxRelev := t.relev }
    else if t.relev = memo.maxRelev then
      { memo with maxStacks := memo.maxStacks ++ [t] }
    else if memo.maxStacks.length < limit then
      { memo with stks := memo.stks ++ [t] }
    else memo
  else memo

/-- Reads `stack[0].idx` for the direction gate (`0` is never used: the gate
first requires the stack to be non-empty). -/
def headIdx (elems : List Archetype) : Nat :=
  match elems with
  | [] => 0
  | e :: _ => e.idx

/-- The `for (let i = 0; ...)` loop over one level's phrasematches in
`stackable`.  `r` is the current level's result, `hasNext` tells whether a
deeper level exists, and `recurse` is the recursive call into the next
level (taking mask, nmask, stack elements, relev, adjRelev, memo). -/
def stackableLoop (r : ArchetypeResult) (hasNext : Bool)
    (recurse : Nat → Nat → List Archetype → ℚ → ℚ → Memo → Memo)
    (limit : Nat) (mask nmask : Nat) (elems : List Archetype) (relev adjRelev : ℚ) :
    List Archetype → Memo → Memo
  | [], memo => memo
  | next :: more, memo =>
    if mask &&& next.mask ≠ 0 then
      stackableLoop r hasNext recurse limit mask nmask elems relev adjRelev more memo
    else if elems.length ≠ 0 ∧ next.idx ≤ headIdx elems ∧ mask ≠ 0 ∧ mask < next.mask then
      stackableLoop r hasNext recurse limit mask nmask elems relev adjRelev more memo
    else
      let targetElems := if next.mask < mask then next :: elems else elems ++ [next]
      let targetStack : Stack Archetype :=
        ⟨targetElems, relev + next.weight, adjRelev + next.weight * next.editMultiplier⟩
      let memo1 := admitTarget limit targetStack memo
      let memo2 :=
        if hasNext then
          recurse (mask ||| next.mask) (nmask ||| r.nmask) targetElems
            targetStack.relev targetStack.adjRelev memo1
        else memo1
      stackableLoop r hasNext recurse limit mask nmask elems relev adjRelev more memo2

/-- One `stackable` stack frame, recursing over the suffix of
`phrasematchResults` from the current level down: first recurse skipping
this level, then apply the nmask and bmask gates, then run the loop over
this level's phrasematches. -/
def stackableAux : List ArchetypeResult → Nat → Nat → Nat → List Archetype → ℚ → ℚ → Memo → Memo
  | [] => fun _ _ _ _ _ _ memo => memo
  | r :: rest => fun limit mask nmask elems relev adjRelev memo =>
    let memo1 :=
      if rest.isEmpty then memo
      else stackableAux rest limit mask nmask elems relev adjRelev memo
    if nmask &&& r.nmask ≠ 0 then memo1
    else if elems.any (fun s => bmaskHas r.bmask s.idx) then memo1
    else
      stackableLoop r (!rest.isEmpty) (stackableAux rest limit) limit mask nmask
        elems relev adjRelev r.phrasematches memo1

/-- The hyperbolic length penalty applied at the top frame of
`stackable`: `adjRelev *= .9 + .1 / (stack.length || 1)`. -/
def applyLengthPenalty (s : Stack Archetype) : Stack Archetype :=
  { s with adjRelev :=
      s.adjRelev * (9/10 + (1/10) / (if s.elements.length = 0 then 1 else (s.elements.length : ℚ))) }

/-- Source `stackable`: paths through the per-index results are enumerated with
mask/nmask/bmask pruning; at the top frame `stacks.concat(maxStacks)` is
returned with the length penalty applied to each stack's `adjRelev`.
A call on an empty result list is unreachable in the pipeline. -/
def stackable (results : List ArchetypeResult) (limit : Nat) : List (Stack Archetype) :=
  let memo := stackableAux results limit 0 0 [] 0 0 ⟨[], [], 0⟩
  (memo.stks ++ memo.maxStacks).map applyLengthPenalty

/-- One iteration of the clone-and-reweight loop of `rebalance`,
accumulating the cloned stack and the running `totalWeight`. -/
def rebalanceFold (wpm tlb : ℚ) (acc : List Phrasematch × ℚ) (e : Phrasematch) :
    List Phrasematch × ℚ :=
  let w2 := roundTo ((wpm + tlb * e.weight) * e.editMultiplier) 8
  (acc.1 ++ [{ e with weight := w2 }], acc.2 + w2)

/-- Source `rebalance`: recompute each element's weight and the stack's relev
from the number of matched tokens and the stack length.  The source never
sets `adjRelev` on the cloned stack; the model sets it to `0`. -/
def rebalance (query : List String) (s : Stack Phrasematch) : Stack Phrasematch :=
  let stackMask := s.elements.foldl (fun m e => m ||| e.mask) 0
  let garbage : ℚ := if query.length = countOnes stackMask then 0 else 1
  let totalLengthBonus := (1/100) * (garbage + (s.elements.length : ℚ))
  let weightPerMatch := 1 / (garbage + (s.elements.length : ℚ)) - 1/100
  let fold := s.elements.foldl (rebalanceFold weightPerMatch totalLengthBonus) ([], 0)
  { elements := fold.1, relev := min (roundTo fold.2 8) 1, adjRelev := 0 }

/-- A raw cover coming back from the external coalesce primitive. -/
structure CacheCover where
  x : Nat
  y : Nat
  relev : ℚ
  id : Nat
  idx : Nat
  tmpid : Nat
  distance : ℚ
  score : Nat
  scoredist : ℚ
  matches_language : Bool
deriving DecidableEq, Repr, Inhabited

/-- A raw spatialmatch from the external coalesce primitive: in the
source an array of cacheCovers with a `relev` property. -/
structure CacheSpatialmatch where
  relev : ℚ
  covers : List CacheCover
deriving DecidableEq, Repr, Inhabited

/-- An enriched cover (constructor `Cover` in the source). -/
structure Cover where
  x : Nat
  y : Nat
  relev : ℚ
  id : Nat
  idx : Nat
  tmpid : Nat
  distance : ℚ
  score : ℚ
  scoredist : ℚ
  scorefactor : ℚ
  matches_language : Bool
  pfx : PScan
  mask : Nat
  text : String
  zoom : Nat
deriving DecidableEq, Repr, Inhabited

/-- A spatialmatch result object (constructor `Spatialmatch`). -/
structure SM where
  relev : ℚ
  covers : List Cover
  partialNumber : Bool
  address : Option String
  scoredist : ℚ
deriving DecidableEq, Repr, Inhabited

/-- Association-list lookup keyed by `Nat`, embedding `Map.get`. -/
def lookupAssoc {α : Type} (m : List (Nat × α)) (k : Nat) : Option α :=
  (m.find? (fun p => p.1 == k)).map (fun p => p.2)

/-- Association-list update keyed by `Nat`, embedding `Map.set`
(insertion order preserved, new keys appended). -/
def setAssoc {α : Type} (m : List (Nat × α)) (k : Nat) (v : α) : List (Nat × α) :=
  if m.any (fun p => p.1 == k) then
    m.map (fun p => if p.1 == k then (k, v) else p)
  else m ++ [(k, v)]

/-- Source `getStackByIdx`: builds a map from element `idx` to element,
iterating the stack from its last entry down to its first (so for a
duplicated idx the entry closest to the front wins, and key insertion
order runs from the back of the stack forward). -/
def getStackByIdx (stack : List Phrasematch) : List (Nat × Phrasematch) :=
  stack.reverse.foldl (fun m e => setAssoc m e.idx e) []

/-- Constructor `Cover(cacheCover, phrasematch)`. -/
def mkCover (cc : CacheCover) (pm : Phrasematch) : Cover :=
  { x := cc.x, y := cc.y, relev := cc.relev, id := cc.id, idx := cc.idx, tmpid := cc.tmpid,
    distance := cc.distance,
    score := decode3BitLogScale (cc.score : ℚ) pm.scorefactor,
    scoredist := if 7 < cc.scoredist then (pm.scorefactor / 7) * cc.scoredist
                 else decode3BitLogScale cc.scoredist pm.scorefactor,
    scorefactor := pm.scorefactor, matches_language := cc.matches_language,
    pfx := pm.pfx, mask := pm.mask,
    text := String.intercalate " " pm.subquery.tokens, zoom := pm.zoom }

/-- Constructor `Spatialmatch(cacheSpatialmatch, stackByIdx,
addressDataByIdx, partialNumber)`: wrap each cacheCover, take the first
address along the covers, set `scoredist` from the first cover and boost
it by 300 for partial-number matches. -/
def mkSpatialmatch (csm : CacheSpatialmatch) (stackByIdx : List (Nat × Phrasematch))
    (addrByIdx : List (Nat × String)) (pn : Bool) : SM :=
  let covers := csm.covers.map (fun cc => mkCover cc ((lookupAssoc stackByIdx cc.idx).getD default))
  let address := csm.covers.foldl
    (fun acc cc => match acc with
      | some a => some a
      | none => lookupAssoc addrByIdx cc.idx) none
  let sd0 := (covers.headD default).scoredist
  { relev := csm.relev, covers := covers, partialNumber := pn, address := address,
    scoredist := if pn then sd0 * 300 else sd0 }

/-- Reads `covers[0].tmpid` of a spatialmatch. -/
def tmpid0 (sm : SM) : Nat :=
  (sm.covers.headD default).tmpid

/-- The descending test of the dedup pass:
`covers.length > 1 && covers[0].idx > covers[1].idx`. -/
def isDescB (sm : SM) : Bool :=
  match sm.covers with
  | c0 :: c1 :: _ => c1.idx < c0.idx
  | _ => false

/-- The ascending test of the dedup pass:
`covers.length > 1 && covers[0].idx < covers[1].idx`. -/
def isAscB (sm : SM) : Bool :=
  match sm.covers with
  | c0 :: c1 :: _ => c0.idx < c1.idx
  | _ => false

/-- The single-cover test of the dedup pass: `covers.length === 1`. -/
def isSingleB (sm : SM) : Bool :=
  sm.covers.length == 1

/-- The filtering loop of `coalesceFinalize`, with the `doneAscending`,
`doneDescending` and `doneSingle` key sets threaded through. -/
def dedupGo : List SM → List Nat → List Nat → List Nat → List SM
  | [], _, _, _ => []
  | sm :: rest, dA, dD, dS =>
    let t := tmpid0 sm
    if isDescB sm = true ∧ t ∉ dD then
      sm :: dedupGo rest dA (t :: dD) dS
    else if isAscB sm = true ∧ t ∉ dA then
      sm :: dedupGo rest (t :: dA) dD dS
    else if isSingleB sm = true ∧ t ∉ dA ∧ t ∉ dD ∧ t ∉ dS then
      sm :: dedupGo rest dA dD (t :: dS)
    else
      dedupGo rest dA dD dS

/-- The dedup pass over the sorted spatialmatches. -/
def dedupFilter (l : List SM) : List SM :=
  dedupGo l [] [] []

/-- The `sets[id]` update of `coalesceFinalize`:
`if (!sets[id] || sets[id].relev < cover.relev) sets[id] = cover`. -/
def setsUpdate (sets : List (Nat × Cover)) (c : Cover) : List (Nat × Cover) :=
  match lookupAssoc sets c.tmpid with
  | none => sets ++ [(c.tmpid, c)]
  | some c0 => if c0.relev < c.relev then setAssoc sets c.tmpid c else sets

/-- The feature-best map over every cover of every spatialmatch (built in
the same pass as the dedup filter in the source; the two accumulators do
not interact, so they are modelled as separate folds over the same
sorted list). -/
def buildSets (sms : List SM) : List (Nat × Cover) :=
  sms.foldl (fun acc sm => sm.covers.foldl setsUpdate acc) []

/-- Numeric value of a boolean, as JavaScript coerces in comparators. -/
def boolQ (b : Bool) : ℚ :=
  if b then 1 else 0

/-- First non-zero entry of a list of comparator components — the
embedding of the JavaScript `||` chains in the sort comparators
(an exhausted chain yields `0`). -/
def firstNonzero : List ℚ → ℚ
  | [] => 0
  | x :: r => if x = 0 then firstNonzero r else x

/-- The `sortByRelev` comparator on spatialmatches. -/
def sortByRelevCmp (a b : SM) : ℚ :=
  firstNonzero [b.relev - a.relev, b.scoredist - a.scoredist,
    (((a.covers.headD default).idx : ℚ) - ((b.covers.headD default).idx : ℚ)),
    boolQ b.address.isSome - boolQ a.address.isSome]

/-- The `sortByZoomIdx` comparator on stack elements. -/
def sortByZoomIdxCmp (a b : Archetype) : ℚ :=
  firstNonzero [(a.zoom : ℚ) - (b.zoom : ℚ), (a.idx : ℚ) - (b.idx : ℚ),
    (b.mask : ℚ) - (a.mask : ℚ)]

/-- Last element of an archetype stack (`a[a.length - 1]`). -/
def lastElem (s : Stack Archetype) : Archetype :=
  s.elements.getLastD default

/-- The `sortByRelevLengthIdx` comparator on stacks; the final per-position
idx scan runs from the last position to the first, and a fully tied
comparison yields `0` (the source returns `undefined`, which the sort
treats as no reordering). -/
def sortByRelevLengthIdxCmp (a b : Stack Archetype) : ℚ :=
  let first := firstNonzero [b.adjRelev - a.adjRelev,
    (a.elements.length : ℚ) - (b.elements.length : ℚ),
    b.relev - a.relev,
    boolQ (lastElem b).proxMatch - boolQ (lastElem a).proxMatch,
    boolQ (lastElem b).catMatch - boolQ (lastElem a).catMatch,
    (lastElem b).scorefactor - (lastElem a).scorefactor]
  if first ≠ 0 then first
  else firstNonzero (((a.elements.reverse).zip (b.elements.reverse)).map
    (fun p => ((p.1.idx : ℚ) - (p.2.idx : ℚ))))

/-- Stable insertion of `x` into an already-sorted list: `x` goes before
the first element that does not compare strictly below it. -/
def insOrd {α : Type} (cmp : α → α → ℚ) (x : α) : List α → List α
  | [] => [x]
  | y :: t => if cmp y x < 0 then y :: insOrd cmp x t else x :: y :: t

/-- A deterministic stable sort by a numeric comparator, modelling the
(stable) `Array.prototype.sort`. -/
def stableSort {α : Type} (cmp : α → α → ℚ) (l : List α) : List α :=
  l.foldr (insOrd cmp) []

/-- The query options consumed by the modelled pipeline stages.
Proximity and bbox geometry only feed the external coalesce primitive
and are folded into the oracle parameters of the model. -/
structure Options where
  allowed_idx : Option (List Bool)
  stackable_limit : Nat
  spatialmatch_stack_limit : Nat
deriving DecidableEq, Repr, Inhabited

/-- Source `allowed`: keep only stacks whose maximal element idx passes the
`allowed_idx` filter; without a filter, the identity. -/
def allowedF (stks : List (Stack Archetype)) (opts : Options) : List (Stack Archetype) :=
  match opts.allowed_idx with
  | none => stks
  | some ai => stks.filter (fun s => bmaskHas ai (s.elements.foldl (fun m e => max m e.idx) 0))

/-- The final output record `{ results, sets, waste }`. -/
structure SpatialOut where
  results : List SM
  sets : List (Nat × Cover)
  waste : List (List Nat)
deriving DecidableEq, Repr, Inhabited

/-- Source `coalesceStack` for one rebalanced stack, with the external geometry
and the native coalesce primitive abstracted as oracles: `bailFn` is the
partial-number bbox-intersection bail (`!pnBbox` after intersection),
`coalesceFn` the native `coalesce` call.  Returns the wrapped
spatialmatches and this stack's contribution to `waste`. -/
def coalesceStackModel (bailFn : List Phrasematch → Bool)
    (coalesceFn : List Phrasematch → List CacheSpatialmatch)
    (s : Stack Phrasematch) : List SM × List (List Nat) :=
  let pn := match s.elements.getLast? with
    | some e => e.partialNumber
    | none => false
  let addrByIdx := s.elements.foldl
    (fun m e => match e.address with
      | some ad => setAssoc m e.idx ad
      | none => m) []
  if pn && bailFn s.elements then ([], [])
  else
    let stackByIdx := getStackByIdx s.elements
    let csms := coalesceFn s.elements
    if csms.isEmpty then ([], [stackByIdx.map Prod.fst])
    else (csms.map (fun c => mkSpatialmatch c stackByIdx addrByIdx pn), [])

/-- Source `coalesceFinalize`: sort the combined spatialmatches by relevance and
run the sets/dedup pass. -/
def coalesceFinalizeModel (combined : List SM) (waste : List (List Nat)) : SpatialOut :=
  let sorted := stableSort sortByRelevCmp combined
  { results := dedupFilter sorted, sets := buildSets sorted, waste := waste }

/-- The `spatialmatch` pipeline: collapse → stackable → allowed →
per-stack zoom sort → stack sort → truncation → expansion → rebalance →
per-stack coalesce (oracles) → finalize.  The parallel coalesce of the
source is order-preserving up to the final sort, so it is modelled as a
sequential map in stack order. -/
def spatialmatchModel (query : List String) (phrasematchResults : List PhrasematchResult)
    (opts : Options) (bailFn : List Phrasematch → Bool)
    (coalesceFn : List Phrasematch → List CacheSpatialmatch) : SpatialOut :=
  let stks : List (Stack Phrasematch) :=
    if phrasematchResults.length ≠ 0 then
      let archetypes := collapseToArchetypes phrasematchResults
      let s1 := stackable archetypes opts.stackable_limit
      let s2 := allowedF s1 opts
      let s3 := s2.map (fun s => { s with elements := stableSort sortByZoomIdxCmp s.elements })
      let s4 := stableSort sortByRelevLengthIdxCmp s3
      let s5 := s4.take opts.spatialmatch_stack_limit
      expandFromArchetypes s5 opts.spatialmatch_stack_limit
    else []
  let rebalanced := stks.map (rebalance query)
  let per := rebalanced.map (coalesceStackModel bailFn coalesceFn)
  coalesceFinalizeModel ((per.map Prod.fst).flatten) ((per.map Prod.snd).flatten)

/-- C1's reading of the admission step, as the claim states it: the final
gate tests `stacks.length < limit`. -/
def admitClaimStep (limit : Nat) (t : Stack Archetype) (memo : Memo) : Memo :=
  if memo.maxRelev < t.relev then
    if limit ≤ memo.maxStacks.length then
      { stks := memo.maxStacks, maxStacks := [t], maxRelev := t.relev }
    else
      { stks := memo.stks, maxStacks := memo.maxStacks ++ [t], maxRelev := t.relev }
  else if t.relev = memo.maxRelev then
    { memo with maxStacks := memo.maxStacks ++ [t] }
  else if memo.stks.length < limit then
    { memo with stks := memo.stks ++ [t] }
  else memo

/-- The amended admission step: identical to the claim's reading except
that the final gate tests `maxStacks.length < limit`, as the source
does. -/
def admitAmendedStep (limit : Nat) (t : Stack Archetype) (memo : Memo) : Memo :=
  if memo.maxRelev < t.relev then
    if limit ≤ memo.maxStacks.length then
      { stks := memo.maxStacks, maxStacks := [t], maxRelev := t.relev }
    else
      { stks := memo.stks, maxStacks := memo.maxStacks ++ [t], maxRelev := t.relev }
  else if t.relev = memo.maxRelev then
    { memo with maxStacks := memo.maxStacks ++ [t] }
  else if memo.maxStacks.length < limit then
    { memo with stks := memo.stks ++ [t] }
  else memo

/-- C2: the pairwise compatibility conditions claimed for two stack
elements together with their source results. -/
def PairGood (a b : ArchetypeResult × Archetype) : Prop :=
  a.2.mask &&& b.2.mask = 0 ∧
  a.1.nmask &&& b.1.nmask = 0 ∧
  a.2.idx ≠ b.2.idx ∧
  bmaskHas a.1.bmask b.2.idx = false ∧
  bmaskHas b.1.bmask a.2.idx = false

/-- C2: a stack's element list is good when its elements can be assigned
source results from `results` that jointly satisfy all pairwise
compatibility conditions. -/
def GoodElems (results : List ArchetypeResult) (elems : List Archetype) : Prop :=
  ∃ ps : List (ArchetypeResult × Archetype),
    elems = ps.map Prod.snd ∧
    (∀ p ∈ ps, p.1 ∈ results ∧ p.2 ∈ p.1.phrasematches) ∧
    List.Pairwise PairGood ps

/-- C2: every stack recorded in the memo is good. -/
def GoodMemo (results : List ArchetypeResult) (m : Memo) : Prop :=
  (∀ s ∈ m.stks, GoodElems results s.elements) ∧
  (∀ s ∈ m.maxStacks, GoodElems results s.elements)

/-- Well-formedness of a phrasematch-result list: each phrasematch
carries its enclosing result's idx, result idxs are pairwise distinct,
and the bmask incompatibility relation is symmetric. -/
def WFResults (results : List ArchetypeResult) : Prop :=
  (∀ r ∈ results, ∀ a ∈ r.phrasematches, a.idx = r.idx) ∧
  List.Pairwise (fun r1 r2 => r1.idx ≠ r2.idx) results ∧
  (∀ r1 ∈ results, ∀ r2 ∈ results, bmaskHas r1.bmask r2.idx = bmaskHas r2.bmask r1.idx)

instance (results : List ArchetypeResult) : Decidable (WFResults results) := by
  unfold WFResults
  infer_instance

/-- C5: the low-confidence condition exactly as the claim words it (the
first exemplar's subquery has length 1 and edit distance 0, the group's
prefix is not disabled, and the group has more than 2 exemplars). -/
def lowConfClaim (g : Archetype) : Prop :=
  (g.exemplars.headD default).subquery.tokens.length = 1 ∧
  (g.exemplars.headD default).subquery.edit_distance = 0 ∧
  g.pfx ≠ PScan.disabled ∧
  2 < g.exemplars.length

instance (g : Archetype) : Decidable (lowConfClaim g) := by
  unfold lowConfClaim
  infer_instance

/-- C9: the cartesian product of choice lists, outer choices first —
the depth-first, position-by-position order of the claim. -/
def cartProd : List (List Phrasematch) → List (List Phrasematch)
  | [] => [[]]
  | xs :: rest => (xs.map (fun x => (cartProd rest).map (fun t => x :: t))).flatten

/-- C9: the claimed expansion of one archetype stack — its exemplar
cartesian product in stack order, every product carrying the stack's
`relev` and `adjRelev` unchanged. -/
def expandSpec (s : Stack Archetype) : List (Stack Phrasematch) :=
  (cartProd (s.elements.map (fun a => a.exemplars))).map (fun c => ⟨c, s.relev, s.adjRelev⟩)

/-- Concrete archetype fixture builder (fields not under test are fixed). -/
def mkArch (m : Nat) (w : ℚ) (i : Nat) : Archetype :=
  { mask := m, weight := w, editMultiplier := 1, zoom := 6, idx := i, scorefactor := 1,
    proxMatch := false, catMatch := false, pfx := PScan.enabled, exemplars := [] }

/-- Concrete phrasematch fixture builder. -/
def mkPMc (m : Nat) (w : ℚ) (i z : Nat) : Phrasematch :=
  { mask := m, weight := w, editMultiplier := 1, zoom := z, idx := i, scorefactor := 1,
    proxMatch := false, catMatch := false, pfx := PScan.enabled,
    subquery := ⟨["a", "b"], 0⟩, partialNumber := false, address := none }

/-- C1 counterexample fixture: a candidate stack of relevance `3/5`. -/
def stkT : Stack Archetype :=
  ⟨[mkArch 1 (3/5) 0], 3/5, 3/5⟩

/-- C1 counterexample fixture: a stack of relevance `9/10` already held in
`maxStacks`. -/
def stkM : Stack Archetype :=
  ⟨[mkArch 2 (9/10) 1], 9/10, 9/10⟩

/-- C1 counterexample fixture: memo with empty `stacks`, one max stack. -/
def memoC1 : Memo :=
  ⟨[], [stkM], 9/10⟩

/-- C2 counterexample fixture: result of idx 0 whose bmask excludes
idx 1, while idx 1's bmask is empty (an asymmetric bmask). -/
def rbA : ArchetypeResult :=
  { idx := 0, nmask := 1, bmask := [false, true], phrasematches := [mkArch 1 (2/5) 0] }

/-- C2 counterexample fixture: result of idx 1 with an empty bmask. -/
def rbB : ArchetypeResult :=
  { idx := 1, nmask := 2, bmask := [], phrasematches := [mkArch 2 (2/5) 1] }

/-- C2 witness fixture: a well-formed two-result input. -/
def wfA : ArchetypeResult :=
  { idx := 0, nmask := 1, bmask := [], phrasematches := [mkArch 1 (2/5) 0] }

/-- C2 witness fixture: a well-formed two-result input, second result. -/
def wfB : ArchetypeResult :=
  { idx := 1, nmask := 2, bmask := [], phrasematches := [mkArch 2 (2/5) 1] }

/-- C3 failing input, first result: one phrasematch covering token 0. -/
def rcA : ArchetypeResult :=
  { idx := 0, nmask := 1, bmask := [], phrasematches := [mkArch 1 (3/10) 0] }

/-- C3 failing input, second result: one phrasematch covering token 2. -/
def rcB : ArchetypeResult :=
  { idx := 1, nmask := 2, bmask := [], phrasematches := [mkArch 4 (3/10) 1] }

/-- C3 failing input, third result: one phrasematch covering token 1. -/
def rcC : ArchetypeResult :=
  { idx := 2, nmask := 4, bmask := [], phrasematches := [mkArch 2 (3/10) 2] }

/-- C6 counterexample fixture: two phrasematches with identical signature
`(mask, weight, editMultiplier, prefix)` but different zoom. -/
def crs6 : List PhrasematchResult :=
  [{ idx := 3, nmask := 1, bmask := [],
     phrasematches := [mkPMc 1 (1/2) 3 6, mkPMc 1 (1/2) 3 14] }]

/-- C7 fixture: a minimal cover with the given idx and tmpid. -/
def covF (i t : Nat) : Cover :=
  { x := 0, y := 0, relev := 1, id := 0, idx := i, tmpid := t, distance := 0, score := 0,
    scoredist := 0, scorefactor := 1, matches_language := true, pfx := PScan.enabled,
    mask := 0, text := "", zoom := 6 }

/-- C7 fixture: a descending two-cover spatialmatch with tmpid 7. -/
def smDesc : SM :=
  ⟨1, [covF 2 7, covF 1 7], false, none, 0⟩

/-- C7 fixture: an ascending two-cover spatialmatch with tmpid 7. -/
def smAsc : SM :=
  ⟨1, [covF 1 7, covF 2 7], false, none, 0⟩

/-- C8 fixture: one raw cover. -/
def cc8 : CacheCover :=
  { x := 0, y := 0, relev := 1, id := 5, idx := 0, tmpid := 9, distance := 0, score := 3,
    scoredist := 5, matches_language := true }

/-- C8 fixture: a one-cover cache spatialmatch. -/
def csm8 : CacheSpatialmatch :=
  { relev := 1, covers := [cc8] }

/-- C9 witness fixture: a two-position archetype stack whose first
position has two exemplars and whose second has one. -/
def stk9 : Stack Archetype :=
  ⟨[{ mkArch 1 (1/2) 0 with exemplars := [mkPMc 1 (1/2) 0 6, mkPMc 1 (1/2) 0 7] },
    { mkArch 2 (1/2) 1 with exemplars := [mkPMc 2 (1/2) 1 6] }], 1, 1⟩

/-- Bit containment: every set bit of `m` is set in `n`. -/
def SubBits (m n : Nat) : Prop :=
  ∀ i, m.testBit i = true → n.testBit i = true

/-- C2 proof invariant for an in-flight `stackable` frame: `ps` pairs the
current stack's elements (in stack order) with their source results;
`rs` is the suffix of levels still to be visited. -/
def InFlight (results rs : List ArchetypeResult) (mask nmask : Nat)
    (ps : List (ArchetypeResult × Archetype)) : Prop :=
  (∀ p ∈ ps, p.1 ∈ results ∧ p.2 ∈ p.1.phrasematches) ∧
  (∀ p ∈ ps, SubBits p.2.mask mask) ∧
  (∀ p ∈ ps, SubBits p.1.nmask nmask) ∧
  List.Pairwise PairGood ps ∧
  (∀ p ∈ ps, ∀ x ∈ rs, p.1.idx ≠ x.idx)

/-- Number of descending spatialmatches with first tmpid `t` in a list. -/
def descCount (t : Nat) (l : List SM) : Nat :=
  l.countP (fun sm => isDescB sm && tmpid0 sm == t)

/-- Number of ascending spatialmatches with first tmpid `t` in a list. -/
def ascCount (t : Nat) (l : List SM) : Nat :=
  l.countP (fun sm => isAscB sm && tmpid0 sm == t)

/-- Number of single-cover spatialmatches with tmpid `t` in a list. -/
def singleCount (t : Nat) (l : List SM) : Nat :=
  l.countP (fun sm => isSingleB sm && tmpid0 sm == t)

/-- The OR of all element masks of a stack (`stackMask` in `rebalance`). -/
def stackMaskOf (s : Stack Phrasematch) : Nat :=
  s.elements.foldl (fun m e => m ||| e.mask) 0

/-- C4's `garbage`, stated with the claim's popcount formulation. -/
def garbageSpec (query : List String) (s : Stack Phrasematch) : ℚ :=
  if popcount (stackMaskOf s) = query.length then 0 else 1

/-- C4's `totalLengthBonus = 0.01 * (garbage + stack.length)`. -/
def totalLengthBonusSpec (query : List String) (s : Stack Phrasematch) : ℚ :=
  (1/100) * (garbageSpec query s + (s.elements.length : ℚ))

/-- C4's `weightPerMatch = 1/(garbage + stack.length) - 0.01`. -/
def weightPerMatchSpec (query : List String) (s : Stack Phrasematch) : ℚ :=
  1 / (garbageSpec query s + (s.elements.length : ℚ)) - 1/100

/-- C4's claimed new weight
`round8((weightPerMatch + totalLengthBonus * w) * editMultiplier)`. -/
def newWeightSpec (query : List String) (s : Stack Phrasematch) (e : Phrasematch) : ℚ :=
  roundTo ((weightPerMatchSpec query s + totalLengthBonusSpec query s * e.weight) *
    e.editMultiplier) 8

/-- C4 witness fixture: a two-element expanded stack. -/
def stkW4 : Stack Phrasematch :=
  ⟨[mkPMc 1 (1/2) 0 6, mkPMc 2 (1/2) 1 6], 1, 1⟩

/-- C8 witness fixture: the idx-to-phrasematch map for `csm8`. -/
def stackBy8 : List (Nat × Phrasematch) :=
  [(0, mkPMc 1 (1/2) 0 6)]

/-- C7 witness fixture: descending, ascending and a second descending
spatialmatch, all with tmpid 7. -/
def l7 : List SM :=
  [smDesc, smAsc, smDesc]

/-- C2 counterexample stack elements: the two archetypes that `stackable`
stacks despite `rbA`'s bmask excluding idx 1. -/
def cexElems2 : List Archetype :=
  [mkArch 1 (2/5) 0, mkArch 2 (2/5) 1]

/-- C2 witness input: a well-formed result list. -/
def wfRes : List ArchetypeResult :=
  [wfA, wfB]

/-- C6 proof invariant for a group built by `addToGroups`: its `idx` is
the enclosing result's, its scoring fields and signature come from its
first exemplar, and every exemplar shares its signature. -/
def ArchInv (rIdx : Nat) (g : Archetype) : Prop :=
  g.idx = rIdx ∧
  (∃ e0 t, g.exemplars = e0 :: t ∧ g.zoom = e0.zoom ∧ g.scorefactor = e0.scorefactor ∧
    g.proxMatch = e0.proxMatch ∧ g.catMatch = e0.catMatch) ∧
  (∀ e ∈ g.exemplars, sigOf e = sigOfArch g)

/-! Theorems.  Helper lemmas come first, then one theorem per claim,
with witnesses and counterexamples where required. -/

theorem count_binDigitsAux (f : Nat) : ∀ (n : Nat) (acc : List Nat),
    (binDigitsAux f n acc).count 1 = popcountAux f n + acc.count 1 := by
  induction f with
  | zero => intro n acc; simp [binDigitsAux, popcountAux]
  | succ f ih =>
    intro n acc
    by_cases h : n = 0
    · simp [binDigitsAux, popcountAux, h]
    · rw [binDigitsAux, popcountAux, if_neg h, if_neg h, ih]
      rcases Nat.mod_two_eq_zero_or_one n with h2 | h2 <;>
        simp [List.count_cons, h2] <;> omega

theorem countOnes_eq_popcount (n : Nat) : countOnes n = popcount n := by
  unfold countOnes binString popcount
  by_cases h : n = 0
  · simp [h, popcountAux]
  · rw [if_neg h, count_binDigitsAux]
    simp

theorem rebalanceFold_spec (wpm tlb : ℚ) : ∀ (l : List Phrasematch) (acc : List Phrasematch × ℚ),
    l.foldl (rebalanceFold wpm tlb) acc =
      (acc.1 ++ l.map (fun e =>
          { e with weight := roundTo ((wpm + tlb * e.weight) * e.editMultiplier) 8 }),
       acc.2 + (l.map (fun e => roundTo ((wpm + tlb * e.weight) * e.editMultiplier) 8)).sum) := by
  intro l
  induction l with
  | nil => intro acc; simp
  | cons e t ih =>
    intro acc
    rw [List.foldl_cons, ih]
    simp [rebalanceFold]
    ring

/-- C4: for every query and non-empty stack, `rebalance` returns a stack
whose element weights follow
`round8((weightPerMatch + totalLengthBonus * w) * editMultiplier)` with
`garbage = 0` iff the popcount of the OR of the element masks equals the
query token count (else `1`), and whose relev is
`min(round8(Σ new weights), 1)`; being a pure function of its arguments,
the embedded `rebalance` is deterministic. -/
theorem C4_rebalance_spec (query : List String) (s : Stack Phrasematch)
    (h : s.elements ≠ []) :
    (garbageSpec query s = 0 ↔ popcount (stackMaskOf s) = query.length) ∧
    (garbageSpec query s = 0 ∨ garbageSpec query s = 1) ∧
    (rebalance query s).elements =
      s.elements.map (fun e => { e with weight := newWeightSpec query s e }) ∧
    (rebalance query s).relev =
      min (roundTo ((s.elements.map (newWeightSpec query s)).sum) 8) 1 := by
  refine ⟨?_, ?_, ?_, ?_⟩
  · unfold garbageSpec
    split
    · simp [*]
    · simp only [one_ne_zero, false_iff]
      assumption
  · unfold garbageSpec
    split
    · exact Or.inl rfl
    · exact Or.inr rfl
  · unfold rebalance
    have hg : (if query.length = countOnes (s.elements.foldl (fun m e => m ||| e.mask) 0)
        then (0:ℚ) else 1) = garbageSpec query s := by
      unfold garbageSpec stackMaskOf
      rw [countOnes_eq_popcount]
      by_cases hq : query.length = popcount (s.elements.foldl (fun m e => m ||| e.mask) 0)
      · rw [if_pos hq, if_pos hq.symm]
      · rw [if_neg hq, if_neg (fun hx => hq hx.symm)]
    simp only [rebalanceFold_spec, List.nil_append, hg]
    rfl
  · unfold rebalance
    have hg : (if query.length = countOnes (s.elements.foldl (fun m e => m ||| e.mask) 0)
        then (0:ℚ) else 1) = garbageSpec query s := by
      unfold garbageSpec stackMaskOf
      rw [countOnes_eq_popcount]
      by_cases hq : query.length = popcount (s.elements.foldl (fun m e => m ||| e.mask) 0)
      · rw [if_pos hq, if_pos hq.symm]
      · rw [if_neg hq, if_neg (fun hx => hq hx.symm)]
    simp only [rebalanceFold_spec, zero_add, hg]
    rfl

/-- C4 witness: the theorem applied to a concrete query and stack. -/
theorem C4_rebalance_spec_witness :
    stkW4.elements ≠ [] ∧
    ((garbageSpec ["a", "b"] stkW4 = 0 ↔ popcount (stackMaskOf stkW4) = 2) ∧
     (garbageSpec ["a", "b"] stkW4 = 0 ∨ garbageSpec ["a", "b"] stkW4 = 1) ∧
     (rebalance ["a", "b"] stkW4).elements =
       stkW4.elements.map (fun e => { e with weight := newWeightSpec ["a", "b"] stkW4 e }) ∧
     (rebalance ["a", "b"] stkW4).relev =
       min (roundTo ((stkW4.elements.map (newWeightSpec ["a", "b"] stkW4)).sum) 8) 1) :=
  ⟨by simp [stkW4], C4_rebalance_spec ["a", "b"] stkW4 (by simp [stkW4])⟩

/-- C1 counterexample: with `limit = 1`, a memo holding one max stack of
relevance `9/10` and empty `stacks`, a candidate of relevance `3/5 > 1/2`
is admitted nowhere by the source (`maxStacks.length < limit` fails),
while the claim's reading (`stacks.length < limit` holds) would push it
into `stacks`. -/
theorem C1_admission_counterexample :
    stkT.relev > 1/2 ∧ admitTarget 1 stkT memoC1 ≠ admitClaimStep 1 stkT memoC1 :=
  of_decide_eq_true (by with_unfolding_all rfl)

/-- C1 (amended): for every candidate stack with `relev > 0.5`, the
admission step behaves as claimed except that the final gate tests
`maxStacks.length < limit` (not `stacks.length < limit`): a strictly
more relevant candidate either displaces `maxStacks` into `stacks`
(when `maxStacks.length ≥ limit`) or is pushed into `maxStacks`, with
`maxRelev` updated; an equally relevant candidate is pushed into
`maxStacks`; any other candidate is pushed into `stacks` provided
`maxStacks.length < limit`. -/
theorem C1_admission_amended (limit : Nat) (t : Stack Archetype) (memo : Memo)
    (h : t.relev > 1/2) :
    admitTarget limit t memo = admitAmendedStep limit t memo := by
  unfold admitTarget admitAmendedStep
  rw [if_pos h]

/-- C1 witness: the amended admission step at a concrete candidate. -/
theorem C1_admission_amended_witness :
    stkT.relev > 1/2 ∧ admitTarget 1 stkT memoC1 = admitAmendedStep 1 stkT memoC1 :=
  ⟨of_decide_eq_true (by with_unfolding_all rfl),
   C1_admission_amended 1 stkT memoC1 (of_decide_eq_true (by with_unfolding_all rfl))⟩

theorem lowConfPenalty_eq (g : Archetype) :
    lowConfPenalty g =
      if lowConfClaim g then { g with editMultiplier := g.editMultiplier * (99/100) }
      else g := by
  obtain ⟨m, w, eM, z, i, sf, pM, cM, px, ex⟩ := g
  unfold lowConfPenalty lowConfClaim
  cases ex with
  | nil => simp
  | cons e0 t => simp

/-- C5: archetype collapse equals grouping followed by the low-confidence
penalty, where a group's `editMultiplier` is multiplied by `0.99` if and
only if the first exemplar's subquery has length 1 and edit distance 0,
the group's prefix is not disabled, and the group has more than two
exemplars. -/
theorem C5_low_confidence_penalty (rs : List PhrasematchResult) :
    collapseToArchetypes rs = rs.map (fun r =>
      { idx := r.idx, nmask := r.nmask, bmask := r.bmask,
        phrasematches := (groupPMs r.idx r.phrasematches).map (fun g =>
          if lowConfClaim g then { g with editMultiplier := g.editMultiplier * (99/100) }
          else g) }) := by
  unfold collapseToArchetypes
  have hfun : lowConfPenalty = fun g =>
      if lowConfClaim g then { g with editMultiplier := g.editMultiplier * (99/100) }
      else g := funext lowConfPenalty_eq
  rw [hfun]

/-- C8: a spatialmatch's `scoredist` is its first cover's `scoredist`,
multiplied by exactly 300 iff `partialNumber`; two spatialmatches built
from the same data differing only in `partialNumber` differ in
`scoredist` by exactly a factor of 300. -/
theorem C8_partial_number_boost (csm : CacheSpatialmatch)
    (sb : List (Nat × Phrasematch)) (ab : List (Nat × String))
    (h : csm.covers ≠ []) :
    (mkSpatialmatch csm sb ab false).scoredist =
      ((mkSpatialmatch csm sb ab false).covers.headD default).scoredist ∧
    (mkSpatialmatch csm sb ab true).scoredist =
      ((mkSpatialmatch csm sb ab true).covers.headD default).scoredist * 300 ∧
    (mkSpatialmatch csm sb ab true).covers = (mkSpatialmatch csm sb ab false).covers ∧
    (mkSpatialmatch csm sb ab true).scoredist =
      (mkSpatialmatch csm sb ab false).scoredist * 300 := by
  unfold mkSpatialmatch
  refine ⟨rfl, ?_, rfl, ?_⟩ <;> simp [mul_comm]

/-- C8 witness: the boost at a concrete cache spatialmatch. -/
theorem C8_partial_number_boost_witness :
    csm8.covers ≠ [] ∧
    ((mkSpatialmatch csm8 stackBy8 [] false).scoredist =
       ((mkSpatialmatch csm8 stackBy8 [] false).covers.headD default).scoredist ∧
     (mkSpatialmatch csm8 stackBy8 [] true).scoredist =
       ((mkSpatialmatch csm8 stackBy8 [] true).covers.headD default).scoredist * 300 ∧
     (mkSpatialmatch csm8 stackBy8 [] true).covers =
       (mkSpatialmatch csm8 stackBy8 [] false).covers ∧
     (mkSpatialmatch csm8 stackBy8 [] true).scoredist =
       (mkSpatialmatch csm8 stackBy8 [] false).scoredist * 300) :=
  ⟨by simp [csm8], C8_partial_number_boost csm8 stackBy8 [] (by simp [csm8])⟩

/-- C10: for every query, options and oracles, the pipeline on an empty
phrasematch-result list yields exactly `{ results := [], sets := [],
waste := [] }`; the coalesce oracle is never consulted (the result does
not depend on it). -/
theorem C10_empty_input (query : List String) (opts : Options)
    (bailFn : List Phrasematch → Bool)
    (coalesceFn : List Phrasematch → List CacheSpatialmatch) :
    spatialmatchModel query [] opts bailFn coalesceFn =
      { results := [], sets := [], waste := [] } :=
  rfl

theorem addToGroups_inv (rIdx : Nat) (gs : List Archetype) (pm : Phrasematch)
    (h : ∀ g ∈ gs, ArchInv rIdx g) :
    ∀ g ∈ addToGroups rIdx gs pm, ArchInv rIdx g := by
  intro g hg
  unfold addToGroups at hg
  split at hg
  · obtain ⟨g0, hg0, rfl⟩ := List.mem_map.mp hg
    obtain ⟨hidx, ⟨e0, t, hexm, hz, hsf, hpm, hcm⟩, hsig⟩ := h g0 hg0
    by_cases hs : sigOfArch g0 = sigOf pm
    · rw [if_pos hs]
      refine ⟨hidx, ⟨e0, t ++ [pm], ?_, hz, hsf, hpm, hcm⟩, ?_⟩
      · simp [hexm]
      · intro e he
        rcases List.mem_append.mp he with he1 | he2
        · exact hsig e he1
        · rw [List.mem_singleton.mp he2]
          exact hs.symm
    · rw [if_neg hs]
      exact ⟨hidx, ⟨e0, t, hexm, hz, hsf, hpm, hcm⟩, hsig⟩
  · rcases List.mem_append.mp hg with hin | hnew
    · exact h g hin
    · rw [List.mem_singleton.mp hnew]
      refine ⟨rfl, ⟨pm, [], rfl, rfl, rfl, rfl, rfl⟩, ?_⟩
      intro e he
      rw [List.mem_singleton.mp he]
      rfl

theorem groupPMs_inv (rIdx : Nat) (pms : List Phrasematch) :
    ∀ g ∈ groupPMs rIdx pms, ArchInv rIdx g := by
  unfold groupPMs
  suffices hgen : ∀ gs0, (∀ g ∈ gs0, ArchInv rIdx g) →
      ∀ g ∈ pms.foldl (addToGroups rIdx) gs0, ArchInv rIdx g by
    exact hgen [] (by intro g hg; cases hg)
  induction pms with
  | nil => intro gs0 h0; simpa using h0
  | cons pm t ih =>
    intro gs0 h0
    rw [List.foldl_cons]
    exact ih (addToGroups rIdx gs0 pm) (addToGroups_inv rIdx gs0 pm h0)

/-- C6 counterexample: two phrasematches with the same signature but
different zoom collapse into one archetype, whose `zoom` (a scoring
field) differs from the second exemplar's. -/
theorem C6_counterexample :
    ((collapseToArchetypes crs6).all (fun r2 => r2.phrasematches.all (fun g =>
      g.exemplars.all (fun e => g.zoom == e.zoom)))) = false := by
  with_unfolding_all rfl

/-- C6 (amended): an archetype's `mask`, `weight` and `prefix` equal every
exemplar's; its `editMultiplier` equals every exemplar's, possibly times
`0.99` (the low-confidence penalty); its `idx` is the enclosing result's;
and its remaining scoring fields (`zoom`, `scorefactor`, `proxMatch`,
`catMatch`) are copied from its first exemplar (they need not agree with
the other exemplars). -/
theorem C6_archetype_fields (rs : List PhrasematchResult) (r2 : ArchetypeResult)
    (h1 : r2 ∈ collapseToArchetypes rs) (g : Archetype) (h2 : g ∈ r2.phrasematches)
    (e : Phrasematch) (h3 : e ∈ g.exemplars) :
    g.mask = e.mask ∧ g.weight = e.weight ∧ g.pfx = e.pfx ∧
    (g.editMultiplier = e.editMultiplier ∨ g.editMultiplier = e.editMultiplier * (99/100)) ∧
    g.idx = r2.idx ∧
    (∃ e0 t, g.exemplars = e0 :: t ∧ g.zoom = e0.zoom ∧ g.scorefactor = e0.scorefactor ∧
      g.proxMatch = e0.proxMatch ∧ g.catMatch = e0.catMatch) := by
  unfold collapseToArchetypes at h1
  obtain ⟨r, hr, rfl⟩ := List.mem_map.mp h1
  simp only at h2
  obtain ⟨g0, hg0, rfl⟩ := List.mem_map.mp h2
  obtain ⟨hidx, ⟨e0, t, hexm, hz, hsf, hpm, hcm⟩, hsig⟩ := groupPMs_inv r.idx r.phrasematches g0 hg0
  rw [lowConfPenalty_eq g0] at h3 ⊢
  have hesig : e.mask = g0.mask ∧ e.weight = g0.weight ∧ e.editMultiplier = g0.editMultiplier ∧
      e.pfx = g0.pfx := by
    have he : e ∈ g0.exemplars := by
      by_cases hc : lowConfClaim g0
      · rw [if_pos hc] at h3; exact h3
      · rw [if_neg hc] at h3; exact h3
    have := hsig e he
    simp only [sigOf, sigOfArch, Prod.mk.injEq] at this
    exact ⟨this.1, this.2.1, this.2.2.1, this.2.2.2⟩
  by_cases hc : lowConfClaim g0
  · rw [if_pos hc]
    exact ⟨hesig.1.symm, hesig.2.1.symm, hesig.2.2.2.symm,
      Or.inr (by rw [hesig.2.2.1]), hidx, ⟨e0, t, hexm, hz, hsf, hpm, hcm⟩⟩
  · rw [if_neg hc]
    exact ⟨hesig.1.symm, hesig.2.1.symm, hesig.2.2.2.symm,
      Or.inl hesig.2.2.1.symm, hidx, ⟨e0, t, hexm, hz, hsf, hpm, hcm⟩⟩

/-- C6 witness: the amended field relations at a concrete collapse. -/
theorem C6_archetype_fields_witness :
    ((collapseToArchetypes crs6).headD default ∈ collapseToArchetypes crs6) ∧
    (((collapseToArchetypes crs6).headD default).phrasematches.headD default ∈
      ((collapseToArchetypes crs6).headD default).phrasematches) ∧
    (mkPMc 1 (1/2) 3 14 ∈
      ((((collapseToArchetypes crs6).headD default).phrasematches.headD default).exemplars)) ∧
    ((((collapseToArchetypes crs6).headD default).phrasematches.headD default).mask =
        (mkPMc 1 (1/2) 3 14).mask ∧
     (((collapseToArchetypes crs6).headD default).phrasematches.headD default).weight =
        (mkPMc 1 (1/2) 3 14).weight ∧
     (((collapseToArchetypes crs6).headD default).phrasematches.headD default).pfx =
        (mkPMc 1 (1/2) 3 14).pfx ∧
     ((((collapseToArchetypes crs6).headD default).phrasematches.headD default).editMultiplier =
        (mkPMc 1 (1/2) 3 14).editMultiplier ∨
      (((collapseToArchetypes crs6).headD default).phrasematches.headD default).editMultiplier =
        (mkPMc 1 (1/2) 3 14).editMultiplier * (99/100)) ∧
     (((collapseToArchetypes crs6).headD default).phrasematches.headD default).idx =
        ((collapseToArchetypes crs6).headD default).idx ∧
     (∃ e0 t, (((collapseToArchetypes crs6).headD default).phrasematches.headD default).exemplars
          = e0 :: t ∧
        (((collapseToArchetypes crs6).headD default).phrasematches.headD default).zoom = e0.zoom ∧
        (((collapseToArchetypes crs6).headD default).phrasematches.headD default).scorefactor =
          e0.scorefactor ∧
        (((collapseToArchetypes crs6).headD default).phrasematches.headD default).proxMatch =
          e0.proxMatch ∧
        (((collapseToArchetypes crs6).headD default).phrasematches.headD default).catMatch =
          e0.catMatch)) :=
  ⟨of_decide_eq_true (by with_unfolding_all rfl),
   of_decide_eq_true (by with_unfolding_all rfl),
   of_decide_eq_true (by with_unfolding_all rfl),
   C6_archetype_fields crs6 _ (of_decide_eq_true (by with_unfolding_all rfl)) _
     (of_decide_eq_true (by with_unfolding_all rfl)) _
     (of_decide_eq_true (by with_unfolding_all rfl))⟩

theorem isAscB_not_desc (sm : SM) (h : isAscB sm = true) : isDescB sm = false := by
  obtain ⟨rel, covers, pn, addr, sd⟩ := sm
  unfold isAscB at h
  unfold isDescB
  match covers, h with
  | c0 :: c1 :: rest, h => simp at h ⊢; omega

theorem isSingleB_not_desc (sm : SM) (h : isSingleB sm = true) : isDescB sm = false := by
  obtain ⟨rel, covers, pn, addr, sd⟩ := sm
  unfold isSingleB at h
  unfold isDescB
  match covers, h with
  | [c0], _ => rfl

theorem isSingleB_not_asc (sm : SM) (h : isSingleB sm = true) : isAscB sm = false := by
  obtain ⟨rel, covers, pn, addr, sd⟩ := sm
  unfold isSingleB at h
  unfold isAscB
  match covers, h with
  | [c0], _ => rfl

theorem isDescB_not_asc (sm : SM) (h : isDescB sm = true) : isAscB sm = false := by
  obtain ⟨rel, covers, pn, addr, sd⟩ := sm
  unfold isDescB at h
  unfold isAscB
  match covers, h with
  | c0 :: c1 :: rest, h => simp at h ⊢; omega

theorem descCount_cons (t : Nat) (sm : SM) (l : List SM) :
    descCount t (sm :: l) =
      descCount t l + (if (isDescB sm && tmpid0 sm == t) = true then 1 else 0) := by
  simp [descCount, List.countP_cons]

theorem ascCount_cons (t : Nat) (sm : SM) (l : List SM) :
    ascCount t (sm :: l) =
      ascCount t l + (if (isAscB sm && tmpid0 sm == t) = true then 1 else 0) := by
  simp [ascCount, List.countP_cons]

theorem singleCount_cons (t : Nat) (sm : SM) (l : List SM) :
    singleCount t (sm :: l) =
      singleCount t l + (if (isSingleB sm && tmpid0 sm == t) = true then 1 else 0) := by
  simp [singleCount, List.countP_cons]

theorem dedupGo_cons_desc (sm : SM) (rest : List SM) (dA dD dS : List Nat)
    (h1 : isDescB sm = true) (h2 : tmpid0 sm ∉ dD) :
    dedupGo (sm :: rest) dA dD dS = sm :: dedupGo rest dA (tmpid0 sm :: dD) dS := by
  simp only [dedupGo]
  rw [if_pos ⟨h1, h2⟩]

theorem dedupGo_cons_asc (sm : SM) (rest : List SM) (dA dD dS : List Nat)
    (h0 : ¬(isDescB sm = true ∧ tmpid0 sm ∉ dD))
    (h1 : isAscB sm = true) (h2 : tmpid0 sm ∉ dA) :
    dedupGo (sm :: rest) dA dD dS = sm :: dedupGo rest (tmpid0 sm :: dA) dD dS := by
  simp only [dedupGo]
  rw [if_neg h0, if_pos ⟨h1, h2⟩]

theorem dedupGo_cons_single (sm : SM) (rest : List SM) (dA dD dS : List Nat)
    (h0 : ¬(isDescB sm = true ∧ tmpid0 sm ∉ dD))
    (h1 : ¬(isAscB sm = true ∧ tmpid0 sm ∉ dA))
    (h2 : isSingleB sm = true) (h3 : tmpid0 sm ∉ dA) (h4 : tmpid0 sm ∉ dD)
    (h5 : tmpid0 sm ∉ dS) :
    dedupGo (sm :: rest) dA dD dS = sm :: dedupGo rest dA dD (tmpid0 sm :: dS) := by
  simp only [dedupGo]
  rw [if_neg h0, if_neg h1, if_pos ⟨h2, h3, h4, h5⟩]

theorem dedupGo_cons_drop (sm : SM) (rest : List SM) (dA dD dS : List Nat)
    (h0 : ¬(isDescB sm = true ∧ tmpid0 sm ∉ dD))
    (h1 : ¬(isAscB sm = true ∧ tmpid0 sm ∉ dA))
    (h2 : ¬(isSingleB sm = true ∧ tmpid0 sm ∉ dA ∧ tmpid0 sm ∉ dD ∧ tmpid0 sm ∉ dS)) :
    dedupGo (sm :: rest) dA dD dS = dedupGo rest dA dD dS := by
  simp only [dedupGo]
  rw [if_neg h0, if_neg h1, if_neg h2]

theorem dedupGo_desc_le (t : Nat) : ∀ (l : List SM) (dA dD dS : List Nat),
    descCount t (dedupGo l dA dD dS) ≤ if t ∈ dD then 0 else 1 := by
  intro l
  induction l with
  | nil =>
    intro dA dD dS
    simp only [dedupGo, descCount, List.countP_nil]
    exact Nat.zero_le _
  | cons sm rest ih =>
    intro dA dD dS
    by_cases hb1 : isDescB sm = true ∧ tmpid0 sm ∉ dD
    · rw [dedupGo_cons_desc sm rest dA dD dS hb1.1 hb1.2, descCount_cons]
      by_cases ht : tmpid0 sm = t
      · subst ht
        have hrec := ih dA (tmpid0 sm :: dD) dS
        rw [if_pos (List.mem_cons_self _ _)] at hrec
        rw [if_neg hb1.2]
        have hone : (if (isDescB sm && tmpid0 sm == tmpid0 sm) = true then 1 else 0) = 1 := by
          simp [hb1.1]
        rw [hone]
        omega
      · have hrec := ih dA (tmpid0 sm :: dD) dS
        have hc : (t ∈ tmpid0 sm :: dD) ↔ (t ∈ dD) := by
          simp [List.mem_cons]
          intro heq
          exact absurd heq.symm ht
        rw [if_congr hc rfl rfl] at hrec
        have hpred : (isDescB sm && tmpid0 sm == t) = false := by
          simp [ht]
        rw [hpred]
        simpa using hrec
    · by_cases hb2 : isAscB sm = true ∧ tmpid0 sm ∉ dA
      · rw [dedupGo_cons_asc sm rest dA dD dS hb1 hb2.1 hb2.2, descCount_cons]
        have hpred : (isDescB sm && tmpid0 sm == t) = false := by
          simp [isAscB_not_desc sm hb2.1]
        rw [hpred]
        simpa using ih (tmpid0 sm :: dA) dD dS
      · by_cases hb3 : isSingleB sm = true ∧ tmpid0 sm ∉ dA ∧ tmpid0 sm ∉ dD ∧ tmpid0 sm ∉ dS
        · rw [dedupGo_cons_single sm rest dA dD dS hb1 hb2 hb3.1 hb3.2.1 hb3.2.2.1 hb3.2.2.2,
            descCount_cons]
          have hpred : (isDescB sm && tmpid0 sm == t) = false := by
            simp [isSingleB_not_desc sm hb3.1]
          rw [hpred]
          simpa using ih dA dD (tmpid0 sm :: dS)
        · rw [dedupGo_cons_drop sm rest dA dD dS hb1 hb2 hb3]
          exact ih dA dD dS

theorem isDescB_not_single (sm : SM) (h : isDescB sm = true) : isSingleB sm = false := by
  cases hB : isSingleB sm
  · rfl
  · rw [isSingleB_not_desc sm hB] at h
    simp at h

theorem isAscB_not_single (sm : SM) (h : isAscB sm = true) : isSingleB sm = false := by
  cases hB : isSingleB sm
  · rfl
  · rw [isSingleB_not_asc sm hB] at h
    simp at h

theorem dedupGo_asc_le (t : Nat) : ∀ (l : List SM) (dA dD dS : List Nat),
    ascCount t (dedupGo l dA dD dS) ≤ if t ∈ dA then 0 else 1 := by
  intro l
  induction l with
  | nil =>
    intro dA dD dS
    simp only [dedupGo, ascCount, List.countP_nil]
    exact Nat.zero_le _
  | cons sm rest ih =>
    intro dA dD dS
    by_cases hb1 : isDescB sm = true ∧ tmpid0 sm ∉ dD
    · rw [dedupGo_cons_desc sm rest dA dD dS hb1.1 hb1.2, ascCount_cons]
      have hpred : (isAscB sm && tmpid0 sm == t) = false := by
        simp [isDescB_not_asc sm hb1.1]
      rw [hpred]
      simpa using ih dA (tmpid0 sm :: dD) dS
    · by_cases hb2 : isAscB sm = true ∧ tmpid0 sm ∉ dA
      · rw [dedupGo_cons_asc sm rest dA dD dS hb1 hb2.1 hb2.2, ascCount_cons]
        by_cases ht : tmpid0 sm = t
        · subst ht
          have hrec := ih (tmpid0 sm :: dA) dD dS
          rw [if_pos (List.mem_cons_self _ _)] at hrec
          rw [if_neg hb2.2]
          have hone : (if (isAscB sm && tmpid0 sm == tmpid0 sm) = true then 1 else 0) = 1 := by
            simp [hb2.1]
          rw [hone]
          omega
        · have hrec := ih (tmpid0 sm :: dA) dD dS
          have hc : (t ∈ tmpid0 sm :: dA) ↔ (t ∈ dA) := by
            simp [List.mem_cons]
            intro heq
            exact absurd heq.symm ht
          rw [if_congr hc rfl rfl] at hrec
          have hpred : (isAscB sm && tmpid0 sm == t) = false := by
            simp [ht]
          rw [hpred]
          simpa using hrec
      · by_cases hb3 : isSingleB sm = true ∧ tmpid0 sm ∉ dA ∧ tmpid0 sm ∉ dD ∧ tmpid0 sm ∉ dS
        · rw [dedupGo_cons_single sm rest dA dD dS hb1 hb2 hb3.1 hb3.2.1 hb3.2.2.1 hb3.2.2.2,
            ascCount_cons]
          have hpred : (isAscB sm && tmpid0 sm == t) = false := by
            simp [isSingleB_not_asc sm hb3.1]
          rw [hpred]
          simpa using ih dA dD (tmpid0 sm :: dS)
        · rw [dedupGo_cons_drop sm rest dA dD dS hb1 hb2 hb3]
          exact ih dA dD dS

theorem dedupGo_single_le (t : Nat) : ∀ (l : List SM) (dA dD dS : List Nat),
    singleCount t (dedupGo l dA dD dS) ≤ if t ∈ dS then 0 else 1 := by
  intro l
  induction l with
  | nil =>
    intro dA dD dS
    simp only [dedupGo, singleCount, List.countP_nil]
    exact Nat.zero_le _
  | cons sm rest ih =>
    intro dA dD dS
    by_cases hb1 : isDescB sm = true ∧ tmpid0 sm ∉ dD
    · rw [dedupGo_cons_desc sm rest dA dD dS hb1.1 hb1.2, singleCount_cons]
      have hpred : (isSingleB sm && tmpid0 sm == t) = false := by
        simp [isDescB_not_single sm hb1.1]
      rw [hpred]
      simpa using ih dA (tmpid0 sm :: dD) dS
    · by_cases hb2 : isAscB sm = true ∧ tmpid0 sm ∉ dA
      · rw [dedupGo_cons_asc sm rest dA dD dS hb1 hb2.1 hb2.2, singleCount_cons]
        have hpred : (isSingleB sm && tmpid0 sm == t) = false := by
          simp [isAscB_not_single sm hb2.1]
        rw [hpred]
        simpa using ih (tmpid0 sm :: dA) dD dS
      · by_cases hb3 : isSingleB sm = true ∧ tmpid0 sm ∉ dA ∧ tmpid0 sm ∉ dD ∧ tmpid0 sm ∉ dS
        · rw [dedupGo_cons_single sm rest dA dD dS hb1 hb2 hb3.1 hb3.2.1 hb3.2.2.1 hb3.2.2.2,
            singleCount_cons]
          by_cases ht : tmpid0 sm = t
          · subst ht
            have hrec := ih dA dD (tmpid0 sm :: dS)
            rw [if_pos (List.mem_cons_self _ _)] at hrec
            rw [if_neg hb3.2.2.2]
            have hone : (if (isSingleB sm && tmpid0 sm == tmpid0 sm) = true then 1 else 0) = 1 := by
              simp [hb3.1]
            rw [hone]
            omega
          · have hrec := ih dA dD (tmpid0 sm :: dS)
            have hc : (t ∈ tmpid0 sm :: dS) ↔ (t ∈ dS) := by
              simp [List.mem_cons]
              intro heq
              exact absurd heq.symm ht
            rw [if_congr hc rfl rfl] at hrec
            have hpred : (isSingleB sm && tmpid0 sm == t) = false := by
              simp [ht]
            rw [hpred]
            simpa using hrec
        · rw [dedupGo_cons_drop sm rest dA dD dS hb1 hb2 hb3]
          exact ih dA dD dS

/-- C7: the dedup pass emits, per first tmpid, at most one descending, at
most one ascending and at most one single-cover spatialmatch; in
particular a descending and an ascending multi-cover result with the
same tmpid both survive, while a second descending one is dropped. -/
theorem C7_dedup_directions (l : List SM) (hcov : ∀ sm ∈ l, sm.covers ≠ []) :
    (∀ t, descCount t (dedupFilter l) ≤ 1 ∧ ascCount t (dedupFilter l) ≤ 1 ∧
      singleCount t (dedupFilter l) ≤ 1) ∧
    dedupFilter l7 = [smDesc, smAsc] := by
  constructor
  · intro t
    refine ⟨?_, ?_, ?_⟩
    · simpa using dedupGo_desc_le t l [] [] []
    · simpa using dedupGo_asc_le t l [] [] []
    · simpa using dedupGo_single_le t l [] [] []
  · with_unfolding_all rfl

/-- C7 witness: the dedup bounds at the concrete three-element list. -/
theorem C7_dedup_directions_witness :
    (∀ sm ∈ l7, sm.covers ≠ []) ∧
    ((∀ t, descCount t (dedupFilter l7) ≤ 1 ∧ ascCount t (dedupFilter l7) ≤ 1 ∧
       singleCount t (dedupFilter l7) ≤ 1) ∧
     dedupFilter l7 = [smDesc, smAsc]) :=
  ⟨of_decide_eq_true (by with_unfolding_all rfl),
   C7_dedup_directions l7 (of_decide_eq_true (by with_unfolding_all rfl))⟩

theorem expandLoopLast_exact (maxOut : Nat) (srel sadj : ℚ) (soFar : List Phrasematch) :
    ∀ (exs : List Phrasematch) (out : List (Stack Phrasematch)),
      out.length + exs.length ≤ maxOut →
      expandLoopLast maxOut srel sadj soFar exs out =
        (out ++ exs.map (fun ex => ⟨soFar ++ [ex], srel, sadj⟩),
         decide (exs ≠ [] ∧ maxOut ≤ out.length + exs.length)) := by
  intro exs
  induction exs with
  | nil =>
    intro out h
    simp [expandLoopLast]
  | cons ex more ih =>
    intro out h
    simp only [expandLoopLast]
    simp only [List.length_cons] at h
    by_cases hstop : maxOut ≤ (out ++ [(⟨soFar ++ [ex], srel, sadj⟩ : Stack Phrasematch)]).length
    · rw [if_pos hstop]
      simp only [List.length_append, List.length_cons, List.length_nil, Nat.add_zero] at hstop
      have hmore : more = [] := by
        have : more.length = 0 := by omega
        exact List.length_eq_zero.mp this
      subst hmore
      simp [hstop]
    · rw [if_neg hstop]
      simp only [List.length_append, List.length_cons, List.length_nil, Nat.add_zero] at hstop
      have h' : (out ++ [(⟨soFar ++ [ex], srel, sadj⟩ : Stack Phrasematch)]).length
          + more.length ≤ maxOut := by
        simp only [List.length_append, List.length_cons, List.length_nil, Nat.add_zero]
        omega
      rw [ih _ h']
      refine Prod.ext ?_ ?_
      · simp
      · simp only [List.length_append, List.length_cons, List.length_nil, Nat.add_zero]
        by_cases hm : more = []
        · subst hm
          simp only [List.length_nil, Nat.add_zero]
          have hfls : ¬(maxOut ≤ out.length + 1) := hstop
          simp [hfls]
        · have : (out.length + 1) + more.length = out.length + (more.length + 1) := by omega
          rw [this]
          simp [hm]

theorem expandLoopMid_exact (maxOut : Nat) (srel sadj : ℚ)
    (recurse : List Phrasematch → List (Stack Phrasematch) → List (Stack Phrasematch) × Bool)
    (prodList : List (List Phrasematch))
    (Hrec : ∀ (soFar : List Phrasematch) (out : List (Stack Phrasematch)),
      out.length + prodList.length ≤ maxOut →
      recurse soFar out =
        (out ++ prodList.map (fun c => ⟨soFar ++ c, srel, sadj⟩),
         decide (prodList ≠ [] ∧ maxOut ≤ out.length + prodList.length)))
    (soFar : List Phrasematch) :
    ∀ (exs : List Phrasematch) (out : List (Stack Phrasematch)),
      out.length + exs.length * prodList.length ≤ maxOut →
      expandLoopMid recurse soFar exs out =
        (out ++ (exs.map (fun x =>
            prodList.map (fun c => ⟨soFar ++ [x] ++ c, srel, sadj⟩))).flatten,
         decide (exs ≠ [] ∧ prodList ≠ [] ∧
           maxOut ≤ out.length + exs.length * prodList.length)) := by
  intro exs
  induction exs with
  | nil =>
    intro out h
    simp [expandLoopMid]
  | cons x more ih =>
    intro out h
    simp only [expandLoopMid]
    simp only [List.length_cons] at h
    have hmul : (more.length + 1) * prodList.length
        = more.length * prodList.length + prodList.length := by ring
    rw [hmul] at h
    have hL : out.length + prodList.length ≤ maxOut := by omega
    rw [Hrec (soFar ++ [x]) out hL]
    by_cases hdone : prodList ≠ [] ∧ maxOut ≤ out.length + prodList.length
    · have hd : decide (prodList ≠ [] ∧ maxOut ≤ out.length + prodList.length) = true :=
        decide_eq_true hdone
      simp only [hd, if_true]
      have hLpos : 0 < prodList.length := List.length_pos.mpr hdone.1
      have hmore : more = [] := by
        have hz : more.length * prodList.length = 0 := by omega
        rcases Nat.mul_eq_zero.mp hz with h0 | h0
        · exact List.length_eq_zero.mp h0
        · omega
      subst hmore
      refine Prod.ext ?_ ?_
      · simp
      · simp only [List.length_cons, List.length_nil, hmul]
        symm
        apply decide_eq_true
        refine ⟨List.cons_ne_nil _ _, hdone.1, ?_⟩
        omega
    · have hd : decide (prodList ≠ [] ∧ maxOut ≤ out.length + prodList.length) = false :=
        decide_eq_false hdone
      simp only [hd]
      rw [if_neg Bool.false_ne_true]
      have hlen : (out ++ prodList.map
          (fun c => (⟨(soFar ++ [x]) ++ c, srel, sadj⟩ : Stack Phrasematch))).length
          = out.length + prodList.length := by simp
      have h' : (out ++ prodList.map
          (fun c => (⟨(soFar ++ [x]) ++ c, srel, sadj⟩ : Stack Phrasematch))).length
          + more.length * prodList.length ≤ maxOut := by
        rw [hlen]
        omega
      rw [ih _ h']
      refine Prod.ext ?_ ?_
      · simp
      · rw [hlen]
        simp only [List.length_cons, hmul]
        rw [decide_eq_decide]
        by_cases hm : more = []
        · subst hm
          constructor
          · rintro ⟨hfalse, -⟩
            exact absurd rfl hfalse
          · rintro ⟨-, hP, hle⟩
            refine absurd ⟨hP, ?_⟩ hdone
            simp only [List.length_nil] at hle
            omega
        · constructor
          · rintro ⟨-, hP, hle⟩
            exact ⟨List.cons_ne_nil _ _, hP, by omega⟩
          · rintro ⟨-, hP, hle⟩
            exact ⟨hm, hP, by omega⟩

theorem flatten_const_length {α β : Type} (k : Nat) (f : α → List β)
    (hf : ∀ x, (f x).length = k) : ∀ xs : List α, ((xs.map f).flatten).length = xs.length * k := by
  intro xs
  induction xs with
  | nil => simp
  | cons x t ih =>
    simp only [List.map_cons, List.flatten_cons, List.length_append, ih, hf, List.length_cons]
    ring

theorem cartProd_singleton (xs : List Phrasematch) :
    cartProd [xs] = xs.map (fun x => [x]) := by
  simp only [cartProd]
  induction xs with
  | nil => rfl
  | cons x t ih => simp_all [cartProd]

theorem cartProd_cons_length (xs : List Phrasematch) (L : List (List Phrasematch)) :
    (cartProd (xs :: L)).length = xs.length * (cartProd L).length := by
  simp only [cartProd]
  exact flatten_const_length (cartProd L).length (fun x => (cartProd L).map (fun t => x :: t))
    (fun x => by simp) xs

theorem expandInner_exact (maxOut : Nat) (srel sadj : ℚ) :
    ∀ (elems : List Archetype), elems ≠ [] →
      ∀ (soFar : List Phrasematch) (out : List (Stack Phrasematch)),
      out.length + (cartProd (elems.map (fun a => a.exemplars))).length ≤ maxOut →
      expandInner maxOut srel sadj elems soFar out =
        (out ++ (cartProd (elems.map (fun a => a.exemplars))).map
            (fun c => ⟨soFar ++ c, srel, sadj⟩),
         decide (cartProd (elems.map (fun a => a.exemplars)) ≠ [] ∧
           maxOut ≤ out.length + (cartProd (elems.map (fun a => a.exemplars))).length)) := by
  intro elems
  induction elems with
  | nil => intro h; exact absurd rfl h
  | cons a rest ih =>
    intro _ soFar out hbound
    cases rest with
    | nil =>
      rw [show expandInner maxOut srel sadj [a] soFar out
          = expandLoopLast maxOut srel sadj soFar a.exemplars out from rfl]
      have hsing : cartProd ([a].map (fun a => a.exemplars)) = a.exemplars.map (fun x => [x]) := by
        simp only [List.map_cons, List.map_nil]
        exact cartProd_singleton a.exemplars
      rw [hsing] at hbound ⊢
      have hlen : (a.exemplars.map (fun x => [x])).length = a.exemplars.length := by simp
      rw [expandLoopLast_exact maxOut srel sadj soFar a.exemplars out (by omega)]
      refine Prod.ext ?_ ?_
      · simp
      · dsimp only
        rw [hlen, decide_eq_decide]
        constructor <;> rintro ⟨hne, hle⟩ <;> exact ⟨by simpa using hne, hle⟩
    | cons b rest2 =>
      have hne2 : (b :: rest2) ≠ [] := List.cons_ne_nil _ _
      rw [show expandInner maxOut srel sadj (a :: b :: rest2) soFar out
          = expandLoopMid (expandInner maxOut srel sadj (b :: rest2)) soFar a.exemplars out
          from rfl]
      have hclen : (cartProd ((a :: b :: rest2).map (fun a => a.exemplars))).length
          = a.exemplars.length * (cartProd ((b :: rest2).map (fun a => a.exemplars))).length := by
        simp only [List.map_cons]
        rw [cartProd_cons_length]
      rw [expandLoopMid_exact maxOut srel sadj (expandInner maxOut srel sadj (b :: rest2))
        (cartProd ((b :: rest2).map (fun a => a.exemplars)))
        (fun soFar2 out2 h2 => ih hne2 soFar2 out2 h2)
        soFar a.exemplars out (by rw [hclen] at hbound; exact hbound)]
      refine Prod.ext ?_ ?_
      · simp only [List.map_cons, cartProd]
        rw [List.map_flatten]
        simp only [List.map_map]
        congr 1
        congr 1
        apply List.map_congr_left
        intro x hx
        simp only [Function.comp, List.map_map]
        apply List.map_congr_left
        intro c hc
        simp
      · dsimp only
        rw [decide_eq_decide]
        have hiff : cartProd ((a :: b :: rest2).map (fun a => a.exemplars)) ≠ []
            ↔ (a.exemplars ≠ [] ∧ cartProd ((b :: rest2).map (fun a => a.exemplars)) ≠ []) := by
          rw [← List.length_pos, hclen, Nat.pos_iff_ne_zero, Nat.mul_ne_zero_iff]
          rw [← List.length_pos, ← List.length_pos, Nat.pos_iff_ne_zero, Nat.pos_iff_ne_zero]
        constructor
        · rintro ⟨hne1, hP, hle⟩
          refine ⟨hiff.mpr ⟨hne1, hP⟩, ?_⟩
          rw [hclen]
          exact hle
        · rintro ⟨hne, hle⟩
          rcases hiff.mp hne with ⟨hne1, hP⟩
          refine ⟨hne1, hP, ?_⟩
          rw [hclen] at hle
          exact hle

theorem cartProd_length : ∀ L : List (List Phrasematch),
    (cartProd L).length = (L.map List.length).prod := by
  intro L
  induction L with
  | nil => rfl
  | cons xs rest ih =>
    rw [cartProd_cons_length, ih]
    simp

theorem expandGo_exact (maxOut : Nat) :
    ∀ (stks : List (Stack Archetype)) (out : List (Stack Phrasematch)),
      (∀ s ∈ stks, s.elements ≠ []) →
      out.length + (stks.map (fun s => (expandSpec s).length)).sum ≤ maxOut →
      expandGo maxOut stks out = out ++ (stks.map expandSpec).flatten := by
  intro stks
  induction stks with
  | nil =>
    intro out _ _
    simp [expandGo]
  | cons s more ih =>
    intro out hne hbound
    simp only [expandGo]
    have hs := hne s (List.mem_cons_self _ _)
    simp only [List.map_cons, List.sum_cons] at hbound
    have hlen1 : (expandSpec s).length
        = (cartProd (s.elements.map (fun a => a.exemplars))).length := by
      simp [expandSpec]
    have hbound1 : out.length + (cartProd (s.elements.map (fun a => a.exemplars))).length
        ≤ maxOut := by
      rw [← hlen1]
      omega
    rw [expandInner_exact maxOut s.relev s.adjRelev s.elements hs [] out hbound1]
    dsimp only
    have hspec : (cartProd (s.elements.map (fun a => a.exemplars))).map
        (fun c => (⟨[] ++ c, s.relev, s.adjRelev⟩ : Stack Phrasematch)) = expandSpec s := by
      simp [expandSpec]
    by_cases hdone : cartProd (s.elements.map fun a => a.exemplars) ≠ [] ∧
        maxOut ≤ out.length + (cartProd (s.elements.map fun a => a.exemplars)).length
    · rw [if_pos (by rw [decide_eq_true hdone])]
      have hzero : (more.map (fun s => (expandSpec s).length)).sum = 0 := by
        have h2 := hdone.2
        rw [← hlen1] at h2
        omega
      have hrest : (more.map expandSpec).flatten = [] := by
        apply List.length_eq_zero.mp
        rw [List.length_flatten, List.map_map]
        simpa using hzero
      rw [hspec, List.map_cons, List.flatten_cons, hrest]
      simp
    · rw [if_neg (by rw [decide_eq_false hdone]; simp)]
      have hlen2 : (out ++ (cartProd (s.elements.map (fun a => a.exemplars))).map
          (fun c => (⟨[] ++ c, s.relev, s.adjRelev⟩ : Stack Phrasematch))).length
          = out.length + (cartProd (s.elements.map (fun a => a.exemplars))).length := by
        simp
      rw [ih _ (fun s2 hs2 => hne s2 (List.mem_cons_of_mem _ hs2)) (by rw [hlen2, ← hlen1]; omega)]
      rw [hspec, List.map_cons, List.flatten_cons]
      simp

theorem expandLoopLast_bound (maxOut : Nat) (srel sadj : ℚ) (soFar : List Phrasematch) :
    ∀ (exs : List Phrasematch) (out : List (Stack Phrasematch)), out.length < maxOut →
      (expandLoopLast maxOut srel sadj soFar exs out).1.length ≤ maxOut ∧
      ((expandLoopLast maxOut srel sadj soFar exs out).2 = false →
        (expandLoopLast maxOut srel sadj soFar exs out).1.length < maxOut) := by
  intro exs
  induction exs with
  | nil =>
    intro out h
    exact ⟨Nat.le_of_lt h, fun _ => h⟩
  | cons ex more ih =>
    intro out h
    simp only [expandLoopLast]
    by_cases hstop : maxOut ≤ (out ++ [(⟨soFar ++ [ex], srel, sadj⟩ : Stack Phrasematch)]).length
    · rw [if_pos hstop]
      refine ⟨?_, ?_⟩
      · simp only [List.length_append, List.length_cons, List.length_nil, Nat.add_zero]
        omega
      · intro hfalse
        simp at hfalse
    · rw [if_neg hstop]
      apply ih
      omega

theorem expandLoopMid_bound (maxOut : Nat)
    (recurse : List Phrasematch → List (Stack Phrasematch) → List (Stack Phrasematch) × Bool)
    (Hrec : ∀ (soFar : List Phrasematch) (out : List (Stack Phrasematch)), out.length < maxOut →
      (recurse soFar out).1.length ≤ maxOut ∧
      ((recurse soFar out).2 = false → (recurse soFar out).1.length < maxOut))
    (soFar : List Phrasematch) :
    ∀ (exs : List Phrasematch) (out : List (Stack Phrasematch)), out.length < maxOut →
      (expandLoopMid recurse soFar exs out).1.length ≤ maxOut ∧
      ((expandLoopMid recurse soFar exs out).2 = false →
        (expandLoopMid recurse soFar exs out).1.length < maxOut) := by
  intro exs
  induction exs with
  | nil =>
    intro out h
    exact ⟨Nat.le_of_lt h, fun _ => h⟩
  | cons x more ih =>
    intro out h
    have hb := Hrec (soFar ++ [x]) out h
    simp only [expandLoopMid]
    cases hr : recurse (soFar ++ [x]) out with
    | mk o2 d2 =>
      rw [hr] at hb
      cases d2
      · simp only [if_neg (by simp : ¬(false = true))]
        exact ih o2 (hb.2 rfl)
      · simp only [if_pos rfl]
        exact ⟨hb.1, fun hfalse => by simp at hfalse⟩

theorem expandInner_bound (maxOut : Nat) (srel sadj : ℚ) :
    ∀ (elems : List Archetype) (soFar : List Phrasematch) (out : List (Stack Phrasematch)),
      out.length < maxOut →
      (expandInner maxOut srel sadj elems soFar out).1.length ≤ maxOut ∧
      ((expandInner maxOut srel sadj elems soFar out).2 = false →
        (expandInner maxOut srel sadj elems soFar out).1.length < maxOut) := by
  intro elems
  induction elems with
  | nil =>
    intro soFar out h
    exact ⟨Nat.le_of_lt h, fun _ => h⟩
  | cons a rest ih =>
    intro soFar out h
    cases rest with
    | nil => exact expandLoopLast_bound maxOut srel sadj soFar a.exemplars out h
    | cons b rest2 =>
      exact expandLoopMid_bound maxOut (expandInner maxOut srel sadj (b :: rest2))
        (fun soFar2 out2 h2 => ih soFar2 out2 h2) soFar a.exemplars out h

theorem expandGo_bound (maxOut : Nat) :
    ∀ (stks : List (Stack Archetype)) (out : List (Stack Phrasematch)), out.length < maxOut →
      (expandGo maxOut stks out).length ≤ maxOut := by
  intro stks
  induction stks with
  | nil =>
    intro out h
    exact Nat.le_of_lt h
  | cons s more ih =>
    intro out h
    simp only [expandGo]
    have hb := expandInner_bound maxOut s.relev s.adjRelev s.elements [] out h
    cases hr : expandInner maxOut s.relev s.adjRelev s.elements [] out with
    | mk o2 d2 =>
      rw [hr] at hb
      cases d2
      · simp only [if_neg (by simp : ¬(false = true))]
        exact ih o2 (hb.2 rfl)
      · simp only [if_pos rfl]
        exact hb.1

/-- C9: with the selected stacks non-empty and at most `maxOut` many, the
expansion emits at most `maxOut` stacks; when no truncation occurs (the
total cartesian-product size fits in `maxOut`) the output is exactly the
concatenation, in depth-first order, of each stack's exemplar cartesian
product, every expanded stack carrying its archetype stack's `relev` and
`adjRelev` unchanged; and each stack's product size is the product of its
exemplars-list sizes. -/
theorem C9_expand_cartesian (stks : List (Stack Archetype)) (maxOut : Nat)
    (h1 : ∀ s ∈ stks, s.elements ≠ []) (h2 : stks.length ≤ maxOut) :
    (expandFromArchetypes stks maxOut).length ≤ maxOut ∧
    ((stks.map (fun s => (expandSpec s).length)).sum ≤ maxOut →
      expandFromArchetypes stks maxOut = (stks.map expandSpec).flatten) ∧
    (∀ s : Stack Archetype,
      (expandSpec s).length = ((s.elements.map (fun a => a.exemplars)).map List.length).prod) := by
  refine ⟨?_, ?_, ?_⟩
  · unfold expandFromArchetypes
    rcases Nat.eq_zero_or_pos maxOut with hz | hp
    · subst hz
      have : stks = [] := List.length_eq_zero.mp (Nat.le_zero.mp h2)
      subst this
      simp [expandGo]
    · exact expandGo_bound maxOut stks [] (by simpa using hp)
  · intro hsum
    unfold expandFromArchetypes
    rw [expandGo_exact maxOut stks [] h1 (by simpa using hsum)]
    simp
  · intro s
    simp [expandSpec, cartProd_length]

/-- C9 witness: the expansion at a concrete two-position stack. -/
theorem C9_expand_cartesian_witness :
    (∀ s ∈ [stk9], s.elements ≠ []) ∧ [stk9].length ≤ 10 ∧
    ((expandFromArchetypes [stk9] 10).length ≤ 10 ∧
     (([stk9].map (fun s => (expandSpec s).length)).sum ≤ 10 →
       expandFromArchetypes [stk9] 10 = ([stk9].map expandSpec).flatten) ∧
     (∀ s : Stack Archetype,
       (expandSpec s).length = ((s.elements.map (fun a => a.exemplars)).map List.length).prod)) :=
  ⟨of_decide_eq_true (by with_unfolding_all rfl),
   of_decide_eq_true (by with_unfolding_all rfl),
   C9_expand_cartesian [stk9] 10 (of_decide_eq_true (by with_unfolding_all rfl))
     (of_decide_eq_true (by with_unfolding_all rfl))⟩

/-- C3 (code bug): on the three-result input `[rcA, rcB, rcC]`,
`stackable` emits a stack holding an element whose mask is strictly
smaller than the mask at position 0 (the emitted stack has masks
`[2, 1, 4]`), contradicting the claimed (and source-commented) invariant
that the smallest mask sits at position 0: the unshift test compares the
new mask against the accumulated OR of masks, not the head's mask. -/
theorem C3_head_mask_violation :
    (stackable [rcA, rcB, rcC] 20).any
      (fun s => s.elements.any
        (fun e => decide (e.mask < (s.elements.headD default).mask))) = true := by
  with_unfolding_all rfl

theorem land_eq_zero_iff (m n : Nat) :
    m &&& n = 0 ↔ ∀ i, ¬(m.testBit i = true ∧ n.testBit i = true) := by
  constructor
  · rintro h i ⟨hm, hn⟩
    have := congrArg (fun x => Nat.testBit x i) h
    simp only [Nat.testBit_land, hm, hn, Bool.and_self, Nat.zero_testBit] at this
    exact absurd this (by decide)
  · intro h
    apply Nat.eq_of_testBit_eq
    intro i
    rw [Nat.testBit_land, Nat.zero_testBit]
    by_cases hm : m.testBit i = true
    · by_cases hn : n.testBit i = true
      · exact absurd ⟨hm, hn⟩ (h i)
      · have hn' : n.testBit i = false := by
          revert hn
          cases n.testBit i <;> simp
        simp [hm, hn']
    · have hm' : m.testBit i = false := by
        revert hm
        cases m.testBit i <;> simp
      simp [hm']

theorem disj_of_subbits {a m n : Nat} (hsub : SubBits a m) (h : m &&& n = 0) :
    a &&& n = 0 := by
  rw [land_eq_zero_iff] at h ⊢
  rintro i ⟨ha, hn⟩
  exact h i ⟨hsub i ha, hn⟩

theorem subbits_lor_left {a m : Nat} (x : Nat) (h : SubBits a m) : SubBits a (m ||| x) := by
  intro i hi
  rw [Nat.testBit_lor, h i hi, Bool.true_or]

theorem subbits_lor_self_right (m x : Nat) : SubBits x (m ||| x) := by
  intro i hi
  rw [Nat.testBit_lor, hi, Bool.or_true]

theorem pairGood_symm {a b : ArchetypeResult × Archetype} (h : PairGood a b) : PairGood b a := by
  obtain ⟨h1, h2, h3, h4, h5⟩ := h
  exact ⟨by rw [Nat.land_comm]; exact h1, by rw [Nat.land_comm]; exact h2, h3.symm, h5, h4⟩

theorem inflight_mono (results rs rs' : List ArchetypeResult) (mask nmask : Nat)
    (ps : List (ArchetypeResult × Archetype)) (hsub : ∀ x ∈ rs', x ∈ rs)
    (h : InFlight results rs mask nmask ps) : InFlight results rs' mask nmask ps := by
  obtain ⟨a, b, c, d, e⟩ := h
  exact ⟨a, b, c, d, fun p hp x hx => e p hp x (hsub x hx)⟩

theorem inflight_extend
    (results : List ArchetypeResult) (hwf : WFResults results)
    (r : ArchetypeResult) (rest : List ArchetypeResult)
    (hsub : List.Sublist (r :: rest) results)
    (mask nmask : Nat) (ps : List (ArchetypeResult × Archetype)) (next : Archetype)
    (hps : InFlight results (r :: rest) mask nmask ps)
    (hng : nmask &&& r.nmask = 0)
    (hbg : ∀ p ∈ ps, bmaskHas r.bmask p.2.idx = false)
    (hmg : mask &&& next.mask = 0)
    (hnext : next ∈ r.phrasematches) :
    InFlight results rest (mask ||| next.mask) (nmask ||| r.nmask)
      (if next.mask < mask then (r, next) :: ps else ps ++ [(r, next)]) := by
  obtain ⟨hmem, hsubm, hsubn, hpw, hsep⟩ := hps
  have hrres : r ∈ results := hsub.subset (List.mem_cons_self r rest)
  have hnidx : next.idx = r.idx := hwf.1 r hrres next hnext
  have hnew_old : ∀ p ∈ ps, PairGood (r, next) p := by
    intro p hp
    obtain ⟨hp1, hp2⟩ := hmem p hp
    have hpidx : p.2.idx = p.1.idx := hwf.1 p.1 hp1 p.2 hp2
    refine ⟨?_, ?_, ?_, ?_, ?_⟩
    · rw [Nat.land_comm]
      exact disj_of_subbits (hsubm p hp) hmg
    · rw [Nat.land_comm]
      exact disj_of_subbits (hsubn p hp) hng
    · rw [hnidx, hpidx]
      exact (hsep p hp r (List.mem_cons_self r rest)).symm
    · exact hbg p hp
    · rw [hnidx, hwf.2.2 p.1 hp1 r hrres, ← hpidx]
      exact hbg p hp
  have hrsep : ∀ x ∈ rest, r.idx ≠ x.idx := by
    have hprw : List.Pairwise (fun r1 r2 => r1.idx ≠ r2.idx) (r :: rest) :=
      List.Pairwise.sublist hsub hwf.2.1
    exact (List.pairwise_cons.mp hprw).1
  refine ⟨?_, ?_, ?_, ?_, ?_⟩
  · intro p hp
    split at hp
    · rcases List.mem_cons.mp hp with h | h
      · rw [h]
        exact ⟨hrres, hnext⟩
      · exact hmem p h
    · rcases List.mem_append.mp hp with h | h
      · exact hmem p h
      · rw [List.mem_singleton.mp h]
        exact ⟨hrres, hnext⟩
  · intro p hp
    split at hp
    · rcases List.mem_cons.mp hp with h | h
      · rw [h]
        exact subbits_lor_self_right mask next.mask
      · exact subbits_lor_left next.mask (hsubm p h)
    · rcases List.mem_append.mp hp with h | h
      · exact subbits_lor_left next.mask (hsubm p h)
      · rw [List.mem_singleton.mp h]
        exact subbits_lor_self_right mask next.mask
  · intro p hp
    split at hp
    · rcases List.mem_cons.mp hp with h | h
      · rw [h]
        exact subbits_lor_self_right nmask r.nmask
      · exact subbits_lor_left r.nmask (hsubn p h)
    · rcases List.mem_append.mp hp with h | h
      · exact subbits_lor_left r.nmask (hsubn p h)
      · rw [List.mem_singleton.mp h]
        exact subbits_lor_self_right nmask r.nmask
  · split
    · exact List.Pairwise.cons hnew_old hpw
    · rw [List.pairwise_append]
      refine ⟨hpw, List.pairwise_singleton _ _, ?_⟩
      intro p hp q hq
      rw [List.mem_singleton.mp hq]
      exact pairGood_symm (hnew_old p hp)
  · intro p hp x hx
    split at hp
    · rcases List.mem_cons.mp hp with h | h
      · rw [h]
        exact hrsep x hx
      · exact hsep p h x (List.mem_cons_of_mem _ hx)
    · rcases List.mem_append.mp hp with h | h
      · exact hsep p h x (List.mem_cons_of_mem _ hx)
      · rw [List.mem_singleton.mp h]
        exact hrsep x hx

theorem admitTarget_good (results : List ArchetypeResult) (limit : Nat) (t : Stack Archetype)
    (memo : Memo) (ht : GoodElems results t.elements) (hm : GoodMemo results memo) :
    GoodMemo results (admitTarget limit t memo) := by
  obtain ⟨h1, h2⟩ := hm
  unfold admitTarget
  split_ifs
  · exact ⟨h2, by
      intro s hs
      rw [List.mem_singleton.mp hs]
      exact ht⟩
  · refine ⟨h1, ?_⟩
    intro s hs
    rcases List.mem_append.mp hs with h | h
    · exact h2 s h
    · rw [List.mem_singleton.mp h]
      exact ht
  · refine ⟨h1, ?_⟩
    intro s hs
    rcases List.mem_append.mp hs with h | h
    · exact h2 s h
    · rw [List.mem_singleton.mp h]
      exact ht
  · refine ⟨?_, h2⟩
    intro s hs
    rcases List.mem_append.mp hs with h | h
    · exact h1 s h
    · rw [List.mem_singleton.mp h]
      exact ht
  · exact ⟨h1, h2⟩
  · exact ⟨h1, h2⟩

theorem stackableLoop_good
    (results : List ArchetypeResult) (hwf : WFResults results)
    (r : ArchetypeResult) (rest : List ArchetypeResult)
    (hsub : List.Sublist (r :: rest) results)
    (hasNext : Bool)
    (recurse : Nat → Nat → List Archetype → ℚ → ℚ → Memo → Memo)
    (Hrec : ∀ (mask2 nmask2 : Nat) (elems2 : List Archetype) (relev2 adj2 : ℚ) (memo2 : Memo)
      (ps2 : List (ArchetypeResult × Archetype)),
      InFlight results rest mask2 nmask2 ps2 → elems2 = ps2.map Prod.snd →
      GoodMemo results memo2 → GoodMemo results (recurse mask2 nmask2 elems2 relev2 adj2 memo2))
    (limit : Nat) (mask nmask : Nat) (elems : List Archetype) (relev adj : ℚ)
    (ps : List (ArchetypeResult × Archetype))
    (hps : InFlight results (r :: rest) mask nmask ps)
    (helems : elems = ps.map Prod.snd)
    (hng : nmask &&& r.nmask = 0)
    (hbg : ∀ p ∈ ps, bmaskHas r.bmask p.2.idx = false) :
    ∀ (pms : List Archetype) (memo : Memo), (∀ pm ∈ pms, pm ∈ r.phrasematches) →
      GoodMemo results memo →
      GoodMemo results
        (stackableLoop r hasNext recurse limit mask nmask elems relev adj pms memo) := by
  intro pms
  induction pms with
  | nil =>
    intro memo _ hm
    exact hm
  | cons next more ih =>
    intro memo hpm hm
    simp only [stackableLoop]
    by_cases hc1 : mask &&& next.mask ≠ 0
    · rw [if_pos hc1]
      exact ih memo (fun pm h => hpm pm (List.mem_cons_of_mem _ h)) hm
    · rw [if_neg hc1]
      by_cases hc2 : elems.length ≠ 0 ∧ next.idx ≤ headIdx elems ∧ mask ≠ 0 ∧ mask < next.mask
      · rw [if_pos hc2]
        exact ih memo (fun pm h => hpm pm (List.mem_cons_of_mem _ h)) hm
      · rw [if_neg hc2]
        have hmask0 : mask &&& next.mask = 0 := not_ne_iff.mp hc1
        have hext := inflight_extend results hwf r rest hsub mask nmask ps next hps hng hbg
          hmask0 (hpm next (List.mem_cons_self _ _))
        have htarget : (if next.mask < mask then next :: elems else elems ++ [next])
            = (if next.mask < mask then (r, next) :: ps else ps ++ [(r, next)]).map Prod.snd := by
          split_ifs
          · rw [helems]
            rfl
          · rw [helems]
            simp
        have hgood : GoodElems results
            (if next.mask < mask then next :: elems else elems ++ [next]) :=
          ⟨(if next.mask < mask then (r, next) :: ps else ps ++ [(r, next)]),
            htarget, hext.1, hext.2.2.2.1⟩
        apply ih
        · intro pm h
          exact hpm pm (List.mem_cons_of_mem _ h)
        · cases hasNext
          · exact admitTarget_good results limit _ memo hgood hm
          · apply Hrec _ _ _ _ _ _
              (if next.mask < mask then (r, next) :: ps else ps ++ [(r, next)]) hext htarget
            exact admitTarget_good results limit _ memo hgood hm

theorem stackableAux_good (results : List ArchetypeResult) (hwf : WFResults results) :
    ∀ (rs : List ArchetypeResult), List.Sublist rs results →
    ∀ (limit mask nmask : Nat) (elems : List Archetype) (relev adj : ℚ) (memo : Memo)
      (ps : List (ArchetypeResult × Archetype)),
      InFlight results rs mask nmask ps → elems = ps.map Prod.snd →
      GoodMemo results memo →
      GoodMemo results (stackableAux rs limit mask nmask elems relev adj memo) := by
  intro rs
  induction rs with
  | nil =>
    intro _ limit mask nmask elems relev adj memo ps _ _ hm
    exact hm
  | cons r rest ih =>
    intro hsub limit mask nmask elems relev adj memo ps hps helems hm
    have hsubrest : List.Sublist rest results :=
      List.Sublist.trans (List.sublist_cons_self r rest) hsub
    simp only [stackableAux]
    have hm1 : GoodMemo results
        (if rest.isEmpty then memo
         else stackableAux rest limit mask nmask elems relev adj memo) := by
      split_ifs with he
      · exact hm
      · exact ih hsubrest limit mask nmask elems relev adj memo ps
          (inflight_mono results (r :: rest) rest mask nmask ps
            (fun x hx => List.mem_cons_of_mem _ hx) hps) helems hm
    by_cases hg1 : nmask &&& r.nmask ≠ 0
    · rw [if_pos hg1]
      exact hm1
    · rw [if_neg hg1]
      by_cases hg2 : elems.any (fun s => bmaskHas r.bmask s.idx) = true
      · rw [if_pos hg2]
        exact hm1
      · rw [if_neg hg2]
        have hbg : ∀ p ∈ ps, bmaskHas r.bmask p.2.idx = false := by
          intro p hp
          have hpel : p.2 ∈ elems := by
            rw [helems]
            exact List.mem_map_of_mem Prod.snd hp
          have hany := List.any_eq_false.mp (Bool.of_not_eq_true hg2) p.2 hpel
          revert hany
          cases bmaskHas r.bmask p.2.idx <;> simp
        exact stackableLoop_good results hwf r rest hsub (!rest.isEmpty)
          (stackableAux rest limit)
          (fun mask2 nmask2 elems2 relev2 adj2 memo2 ps2 hin helems2 hgm =>
            ih hsubrest limit mask2 nmask2 elems2 relev2 adj2 memo2 ps2 hin helems2 hgm)
          limit mask nmask elems relev adj ps hps helems (not_ne_iff.mp hg1) hbg
          r.phrasematches _ (fun pm h => h) hm1

/-- C2 counterexample: with an asymmetric bmask (`rbA` excludes idx 1 but
not vice versa), `stackable` emits the stack `[mkArch 1 (2/5) 0,
mkArch 2 (2/5) 1]` even though the first element's source result's bmask
has the bit of the second element's idx set, so the claimed unordered
pair condition fails. -/
theorem C2_counterexample :
    ((stackable [rbA, rbB] 10).map (fun s => s.elements) = [cexElems2]) ∧
    ¬ GoodElems [rbA, rbB] cexElems2 := by
  constructor
  · with_unfolding_all rfl
  · rintro ⟨ps, hmap, hmem, hpw⟩
    rcases ps with _ | ⟨p0, ps'⟩
    · simp [cexElems2] at hmap
    rcases ps' with _ | ⟨p1, ps''⟩
    · simp [cexElems2] at hmap
    rcases ps'' with _ | ⟨p2, ps'''⟩
    · simp only [List.map_cons, List.map_nil, cexElems2] at hmap
      have hp02 : p0.2 = mkArch 1 (2/5) 0 := ((List.cons_eq_cons.mp hmap).1).symm
      have hp12 : p1.2 = mkArch 2 (2/5) 1 :=
        ((List.cons_eq_cons.mp (List.cons_eq_cons.mp hmap).2).1).symm
      have h0 := hmem p0 (by simp)
      have h1 := hmem p1 (by simp)
      have hp01 : p0.1 = rbA := by
        rcases List.mem_cons.mp h0.1 with hA | hB
        · exact hA
        · exfalso
          have := h0.2
          rw [List.mem_singleton.mp hB, hp02] at this
          simp [rbB, mkArch] at this
      have hp11 : p1.1 = rbB := by
        rcases List.mem_cons.mp h1.1 with hA | hB
        · exfalso
          have := h1.2
          rw [hA, hp12] at this
          simp [rbA, mkArch] at this
        · exact List.mem_singleton.mp hB
      have hpg := (List.pairwise_cons.mp hpw).1 p1 (by simp)
      have hbm := hpg.2.2.2.1
      rw [hp01, hp12] at hbm
      simp [rbA, bmaskHas, mkArch] at hbm
    · simp [cexElems2] at hmap

/-- C2 (amended): for every well-formed list of phrasematch results —
each phrasematch carrying its result's idx, results with pairwise
distinct idx, and a symmetric bmask relation — every stack emitted by
`stackable` admits an assignment of source results under which elements
have pairwise-disjoint masks, the sources have pairwise-disjoint nmasks,
elements have pairwise-distinct idx, and no pair `(a, b)` has `a`'s
source's bmask containing `b`'s idx. -/
theorem C2_stack_invariants (results : List ArchetypeResult) (limit : Nat)
    (hwf : WFResults results) :
    ∀ s ∈ stackable results limit, GoodElems results s.elements := by
  intro s hs
  unfold stackable at hs
  rcases List.mem_map.mp hs with ⟨s0, hs0, rfl⟩
  have hinit : InFlight results results 0 0 [] := by
    refine ⟨?_, ?_, ?_, List.Pairwise.nil, ?_⟩
    · intro p hp
      exact absurd hp (List.not_mem_nil p)
    · intro p hp
      exact absurd hp (List.not_mem_nil p)
    · intro p hp
      exact absurd hp (List.not_mem_nil p)
    · intro p hp
      exact absurd hp (List.not_mem_nil p)
  have hgm : GoodMemo results (stackableAux results limit 0 0 [] 0 0 ⟨[], [], 0⟩) :=
    stackableAux_good results hwf results (List.Sublist.refl results)
      limit 0 0 [] 0 0 ⟨[], [], 0⟩ [] hinit rfl
      ⟨fun s hs => absurd hs (List.not_mem_nil s), fun s hs => absurd hs (List.not_mem_nil s)⟩
  rcases List.mem_append.mp hs0 with h | h
  · exact hgm.1 s0 h
  · exact hgm.2 s0 h

/-- C2 witness: the invariants at a concrete well-formed input. -/
theorem C2_stack_invariants_witness :
    WFResults wfRes ∧
    GoodElems wfRes ((stackable wfRes 5).headD default).elements :=
  ⟨of_decide_eq_true (by with_unfolding_all rfl),
   C2_stack_invariants wfRes 5 (of_decide_eq_true (by with_unfolding_all rfl)) _
     (of_decide_eq_true (by with_unfolding_all rfl))⟩
